import Mathlib

/-!
Shallow embedding of the imageproc repository's core (pixel model, image
buffer, boundary sampler, kernel/filter engine) and proofs about it.

Modelling conventions:
* the `u8` subpixel type is modelled as `ℕ` with representable range
  `[0, 255]`;
* `f32` values are modelled as exact rationals `ℚ`; all `f32` operations the
  verified code paths perform (add, mul, div, comparisons, truncating casts)
  are exact on the small values involved, except for the transcendental
  `exp`, which is abstracted as a function parameter;
* Rust panics (slice index out of range, `Option::unwrap` on `None`,
  failed `assert!`) are modelled by `Option`, a panic being `none`;
* a pixel (`Pix`) is the list of its channel values, as in the Rust
  `data: [T; $channels]` array.
-/

/-- A pixel value: the list of its `u8` channel values. -/
abbrev Pix : Type := List ℕ

/-- The `num` crate's checked cast `f32 -> u8` (`T::from` / `NumCast::from`
for `T = u8`): `None` unless `0 ≤ x ≤ 255`, otherwise truncation toward
zero (for nonnegative `x`, truncation is `floor`). -/
def f32ToU8 (x : ℚ) : Option ℕ :=
  if 0 ≤ x ∧ x ≤ 255 then some x.floor.toNat else none

/-- `math::utils::clip_from_f32` specialised to `u8`: clamp into
`[min, max] = [0, 255]`, then convert with `T::from(ret).unwrap()`.
After clamping the conversion always succeeds, so this is total. -/
def clip_from_f32 (x : ℚ) : ℕ :=
  (if x < 0 then (0 : ℚ) else if x > 255 then 255 else x).floor.toNat

/-- `Pixel::from_raw` (define_colors!): starts from the zero pixel and runs
`for i in 0..channels { t.data[i] = data[i]; }`.  The loop panics (`none`)
iff the slice is shorter than `channels`; otherwise the first `channels`
entries are copied. -/
def Pixel.from_raw (channels : ℕ) (data : List ℕ) : Option Pix :=
  if channels ≤ data.length then some (data.take channels) else none

/-- `u8::saturating_add`. -/
def saturatingAddU8 (a b : ℕ) : ℕ := min (a + b) 255

/-- `Saturating::saturating_add` on pixels (define_saturating!): channel-wise
saturating addition.  The Rust loop indexes `other.data[i]` for
`i < channels`; on well-formed pixels both lists have length `channels`,
which `zipWith` reproduces. -/
def Pix.saturating_add (p q : Pix) : Pix := p.zipWith saturatingAddU8 q

/-- Scalar `Add` on one channel (define_colors! `Add<U>`): clamps to the
maximum only; a result below `0` reaches `T::from(a+b).unwrap()`, which
panics (`none`). -/
def scalarAddChan (v : ℕ) (s : ℚ) : Option ℕ :=
  let a : ℚ := v
  if (255 : ℚ) < a + s then some 255 else f32ToU8 (a + s)

/-- Scalar `Sub` on one channel (define_colors! `Sub<U>`): clamps to the
minimum only; a result above `255` reaches `T::from(a-b).unwrap()`, which
panics (`none`). -/
def scalarSubChan (v : ℕ) (s : ℚ) : Option ℕ :=
  let a : ℚ := v
  if a - s < 0 then some 0 else f32ToU8 (a - s)

/-- Scalar `Mul` on one channel (define_colors! `Mul<U>`): clamps to the
maximum only; a negative product reaches `T::from(a*b).unwrap()`, which
panics (`none`). -/
def scalarMulChan (v : ℕ) (s : ℚ) : Option ℕ :=
  let a : ℚ := v
  if (255 : ℚ) < a * s then some 255 else f32ToU8 (a * s)

/-- Pixel-with-scalar addition: the per-channel loop over `data`. -/
def Pix.addScalar (p : Pix) (s : ℚ) : Option Pix := p.mapM (scalarAddChan · s)

/-- Pixel-with-scalar subtraction. -/
def Pix.subScalar (p : Pix) (s : ℚ) : Option Pix := p.mapM (scalarSubChan · s)

/-- Pixel-with-scalar multiplication. -/
def Pix.mulScalar (p : Pix) (s : ℚ) : Option Pix := p.mapM (scalarMulChan · s)

/-- `Image<T>`: width, height, stride and the flat row-major pixel buffer
(`data.len() == stride * height`, `stride == width` for every image the
code constructs). -/
structure Image (α : Type) where
  w : ℕ
  h : ℕ
  stride : ℕ
  data : List α
  deriving Repr, DecidableEq

/-- The invariant every image constructed by the code satisfies
(`Image::new` sets `stride = width` and allocates `width*height` pixels). -/
def Image.wf (img : Image α) : Prop :=
  img.stride = img.w ∧ img.data.length = img.w * img.h

instance (img : Image α) : Decidable img.wf := by
  unfold Image.wf; infer_instance

/-- `Index<(u32,u32)> for Image`: `&self.data[(stride * y + x) as usize]`.
The flat buffer access panics (`none`) iff the offset is out of the buffer;
note that it performs no per-axis bounds check. -/
def Image.index (img : Image α) (x y : ℕ) : Option α :=
  img.data[img.stride * y + x]?

/-- The pixel grid of the image: the pixel at `(x, y)` when
`x < width ∧ y < height`, and `none` otherwise.  This is the
"pixel at a coordinate" notion the specification speaks about. -/
def Image.pixelAt (img : Image α) (x y : ℕ) : Option α :=
  if x < img.w ∧ y < img.h then img.index x y else none

/-- Well-formedness of a `u8` pixel image for a pixel type with `nc`
channels: every stored pixel has `nc` channels. -/
def Image.chanWf (nc : ℕ) (img : Image Pix) : Prop :=
  ∀ p ∈ img.data, p.length = nc

instance (nc : ℕ) (img : Image Pix) : Decidable (img.chanWf nc) := by
  unfold Image.chanWf; infer_instance

/-- Every channel value lies in the `u8` range. -/
def Image.u8Wf (img : Image Pix) : Prop :=
  ∀ p ∈ img.data, ∀ v ∈ p, v ≤ 255

instance (img : Image Pix) : Decidable img.u8Wf := by
  unfold Image.u8Wf; infer_instance

/-- `AlterType<P>`: the boundary policy of the `Eye` sampler. -/
inductive AlterType (α : Type) where
  | constant (p : α)
  | mirror
  | extend
  deriving Repr, DecidableEq

/-- `Eye<P>`: a coordinate plus a boundary policy. -/
structure Eye (α : Type) where
  x : ℤ
  y : ℤ
  alter_type : AlterType α
  deriving Repr, DecidableEq

/-- `Default for Eye`: coordinate `(0,0)`, `Extend` policy. -/
def Eye.default (α : Type) : Eye α := ⟨0, 0, AlterType.extend⟩

/-- Builder `Eye::x`. -/
def Eye.setX (e : Eye α) (x : ℤ) : Eye α := { e with x := x }

/-- Builder `Eye::y`. -/
def Eye.setY (e : Eye α) (y : ℤ) : Eye α := { e with y := y }

/-- Builder `Eye::constant`. -/
def Eye.setConstant (e : Eye α) (p : α) : Eye α :=
  { e with alter_type := AlterType.constant p }

/-- Builder `Eye::mirror`. -/
def Eye.setMirror (e : Eye α) : Eye α := { e with alter_type := AlterType.mirror }

/-- Builder `Eye::extend`. -/
def Eye.setExtend (e : Eye α) : Eye α := { e with alter_type := AlterType.extend }

/-- `Eye::new(x, y)`: `Self::default().x(x).y(y)`. -/
def Eye.new (α : Type) (x y : ℤ) : Eye α :=
  ((Eye.default α).setX x).setY y

/-- The per-axis coordinate computation of the `Mirror` branch of
`Eye::look` (`if x < 0 { x = -x }; if x > width { x = width - x % width }`):
negation for a negative coordinate, then `dim - (coord % dim)` for a
coordinate strictly greater than the dimension.  A coordinate equal to the
dimension is NOT remapped, so the result can be out of the pixel grid. -/
def mirrorCoord (dim : ℕ) (x : ℤ) : ℤ :=
  let x1 := if x < 0 then -x else x
  if x1 > (dim : ℤ) then (dim : ℤ) - x1 % (dim : ℤ) else x1

/-- The per-axis computation of the `Extend` branch of `Eye::look`
(`x = min(x, width-1); x = max(x, 0)` then `as usize`): clamp into
`[0, dim-1]`. -/
def clampAxis (dim : ℕ) (x : ℤ) : ℕ :=
  (max (min x ((dim : ℤ) - 1)) 0).toNat

/-- `Eye::look`.  For an in-bounds coordinate the image is read directly.
Otherwise the policy decides: `Constant` returns the stored pixel; `Extend`
applies `clampAxis` per axis; `Mirror` applies `mirrorCoord` per axis —
after which a coordinate equal to the dimension is still out of the pixel
grid, so the flat-buffer access can read a cell of the next row or panic.
(When a dimension is `0` the Rust `%` in the mirror branch would panic;
in that case the buffer of a well-formed image is empty and the access
yields `none` here as well.) -/
def Eye.look (e : Eye α) (img : Image α) : Option α :=
  if 0 ≤ e.x ∧ e.x < (img.w : ℤ) ∧ 0 ≤ e.y ∧ e.y < (img.h : ℤ) then
    img.index e.x.toNat e.y.toNat
  else
    match e.alter_type with
    | AlterType.constant p => some p
    | AlterType.extend =>
        img.index (clampAxis img.w e.x) (clampAxis img.h e.y)
    | AlterType.mirror =>
        img.index (mirrorCoord img.w e.x).toNat (mirrorCoord img.h e.y).toNat

/-- The 3×3 gray test image `[1,2,3; 4,5,6; 7,8,9]`. -/
def img3 : Image Pix :=
  ⟨3, 3, 3, [[1], [2], [3], [4], [5], [6], [7], [8], [9]]⟩


/-- The row-major buffer of a `width × height` image whose pixel at `(x, y)`
is `g x y`: rows are produced in increasing `y`, each row in increasing `x`,
exactly the order in which the filter loops write the output buffer. -/
def rowMajor (w : ℕ) (g : ℕ → ℕ → α) : ℕ → List α
  | 0 => []
  | h + 1 => rowMajor w g h ++ (List.range w).map (fun x => g x h)

/-- Sequences a list of fallible per-pixel results: any panic (`none`)
aborts the whole filter run, as a Rust panic does. -/
def optList : List (Option α) → Option (List α)
  | [] => some []
  | none :: _ => none
  | some a :: rest => (optList rest).map (a :: ·)

/-- The cell order of the nested loops `for i in 0..a { for j in 0..b }`. -/
def pairsOuter : ℕ → ℕ → List (ℕ × ℕ)
  | 0, _ => []
  | a + 1, b => pairsOuter a b ++ (List.range b).map (fun j => (a, j))

/-- A kernel (`GeneralKernel` / `GaussianKernel`): a weight matrix stored as
rows (`data[y][x]`), with its nominal width and height. -/
structure Kern where
  width : ℕ
  height : ℕ
  data : List (List ℚ)
  deriving Repr, DecidableEq

/-- `Index<(usize,usize)>` on kernels: `&self.data[y][x]`.  The Rust access
panics out of range; the engine only ever indexes `x < width, y < height`
of well-formed kernels, where `getD` coincides with it. -/
def Kern.idx (k : Kern) (x y : ℕ) : ℚ :=
  (k.data.getD y []).getD x 0

/-- Shape invariant of a kernel built by either constructor. -/
def Kern.wf (k : Kern) : Prop :=
  k.data.length = k.height ∧ ∀ row ∈ k.data, row.length = k.width

instance (k : Kern) : Decidable k.wf := by
  unfold Kern.wf; infer_instance

/-- `GeneralKernel::new(width, height, data)`:
`assert_eq!(width * height, data.len())` (panic modelled as `none`), then
the flat slice is copied row-major (`data[i * width + j]`). -/
def GeneralKernel.new (width height : ℕ) (d : List ℚ) : Option Kern :=
  if width * height = d.length then
    some ⟨width, height,
      (List.range height).map (fun i =>
        (List.range width).map (fun j => d.getD (i * width + j) 0))⟩
  else none

/-- Sum of all kernel coefficients, as `normalize` computes it. -/
def Kern.sumCoeffs (k : Kern) : ℚ :=
  ∑ x ∈ Finset.range k.width, ∑ y ∈ Finset.range k.height, k.idx x y

/-- `op::filter::normalize`: divide every coefficient by the total sum. -/
def Kern.normalize (k : Kern) : Kern :=
  ⟨k.width, k.height, k.data.map (fun row => row.map (fun v => v / k.sumCoeffs))⟩

/-- The raw (pre-normalization) Gaussian kernel, with the `f32::exp`
function abstracted as `e`: cell `(x, y)` holds
`e(-(dx²/(2σ²) + dy²/(2σ²)))` for `dx = |x - size/2|`, `dy = |y - size/2|`
(integer division in `size/2`), exactly the double fill loop of
`GaussianKernel::new`. -/
def gaussianRawKern (e : ℚ → ℚ) (size : ℕ) (sigma : ℚ) : Kern :=
  ⟨size, size,
    (List.range size).map (fun x =>
      (List.range size).map (fun y =>
        let dx := |(Nat.cast x : ℚ) - ((size / 2 : ℕ) : ℚ)|
        let dy := |(Nat.cast y : ℚ) - ((size / 2 : ℕ) : ℚ)|
        e (-(dx * dx / (2 * sigma * sigma) + dy * dy / (2 * sigma * sigma)))))⟩

/-- `GaussianKernel::new(size, sigma)`: `assert_eq!(size & 1, 1)` (panic
modelled as `none`), fill the raw kernel, then normalize it. -/
def GaussianKernel.new (e : ℚ → ℚ) (size : ℕ) (sigma : ℚ) : Option Kern :=
  if size % 2 = 1 then some (Kern.normalize (gaussianRawKern e size sigma))
  else none

/-- The channel `c` of a pixel as an `f32` value (`raw()[c].to_f32()`). -/
def chanQ (p : Pix) (c : ℕ) : ℚ := (p.getD c 0 : ℚ)

/-- The specification-side `Extend` sampler: the pixel at the coordinate
clamped per axis into `[0, dim-1]` (total; `[]` only for images without
pixels). -/
def extendRead (img : Image Pix) (ix iy : ℤ) : Pix :=
  (img.pixelAt (clampAxis img.w ix) (clampAxis img.h iy)).getD []

/-- The accumulation loop of `kern_calc_one_pos` over the kernel cells, in
loop order: for each cell `(i, j)`, sample `Eye::new(i + sx, j + sy).extend()`,
scale each channel by the weight `kern[(i, j)]`, and add into the
accumulator (`*it += v[i]`; accumulator and sample both have `channels`
entries on well-formed images, which `zipWith` reproduces). -/
def kernAccum (k : Kern) (img : Image Pix) (sx sy : ℤ) :
    List (ℕ × ℕ) → List ℚ → Option (List ℚ)
  | [], acc => some acc
  | ij :: rest, acc =>
    ((Eye.new Pix (ij.1 + sx) (ij.2 + sy)).setExtend.look img).bind fun a =>
      kernAccum k img sx sy rest
        (acc.zipWith (· + ·) (a.map (fun s => (Nat.cast s : ℚ) * k.idx ij.1 ij.2)))

/-- `kern_calc_one_pos`: accumulate over all kernel cells starting from the
zero vector of `channels` entries, clip each channel with `clip_from_f32`
into the `u8` range, and rebuild the pixel with `P::from_raw`. -/
def kern_calc_one_pos (nc : ℕ) (k : Kern) (x y : ℕ) (img : Image Pix) : Option Pix :=
  let sx : ℤ := (x : ℤ) - ((k.width / 2 : ℕ) : ℤ)
  let sy : ℤ := (y : ℤ) - ((k.height / 2 : ℕ) : ℤ)
  (kernAccum k img sx sy (pairsOuter k.width k.height) (List.replicate nc 0)).bind
    fun acc => Pixel.from_raw nc (acc.map clip_from_f32)

/-- `Filter::filter` for kernels (define_kernel!): allocate a fresh
`width × height` image and write `kern_calc_one_pos` at every `(x, y)`,
`y` outer, `x` inner — i.e. the output buffer in row-major order. -/
def Kern.filter (nc : ℕ) (k : Kern) (img : Image Pix) : Option (Image Pix) :=
  (optList (rowMajor img.w (fun x y => kern_calc_one_pos nc k x y img) img.h)).bind
    fun d => some ⟨img.w, img.h, img.w, d⟩

/-- The claim-side convolution formula for channel `c` of output pixel
`(x, y)`: the sum over all kernel cells `(i, j)` of the weight at `(i, j)`
times the channel value sampled at `(x + i - width/2, y + j - height/2)`
through an `Extend`-policy sampler. -/
def convChan (k : Kern) (img : Image Pix) (x y c : ℕ) : ℚ :=
  ∑ i ∈ Finset.range k.width, ∑ j ∈ Finset.range k.height,
    k.idx i j *
      chanQ (extendRead img ((x : ℤ) + i - ((k.width / 2 : ℕ) : ℤ))
        ((y : ℤ) + j - ((k.height / 2 : ℕ) : ℤ))) c

/-- The claim-side convolution output pixel: each channel accumulated
independently and clamped into the `u8` range. -/
def convSpec (nc : ℕ) (k : Kern) (img : Image Pix) (x y : ℕ) : Pix :=
  (List.range nc).map (fun c => clip_from_f32 (convChan k img x y c))


/-- `MedianFilter { width, height }`. -/
structure MedianFilter where
  width : ℕ
  height : ℕ
  deriving Repr, DecidableEq

/-- `MedianFilter::new`: `assert_eq!(width & 1, 1)` and likewise for the
height (panic modelled as `none`). -/
def MedianFilter.new (width height : ℕ) : Option MedianFilter :=
  if width % 2 = 1 ∧ height % 2 = 1 then some ⟨width, height⟩ else none

/-- `BoxFilter { width, height }`. -/
structure BoxFilter where
  width : ℕ
  height : ℕ
  deriving Repr, DecidableEq

/-- `BoxFilter::new`: both dimensions must be odd. -/
def BoxFilter.new (width height : ℕ) : Option BoxFilter :=
  if width % 2 = 1 ∧ height % 2 = 1 then some ⟨width, height⟩ else none

/-- Is the integer coordinate strictly inside the image
(`0 <= x && x < width && 0 <= y && y < height`)? -/
def insideImg (img : Image α) (p : ℤ × ℤ) : Bool :=
  decide (0 ≤ p.1 ∧ p.1 < (img.w : ℤ) ∧ 0 ≤ p.2 ∧ p.2 < (img.h : ℤ))

/-- The window coordinates `(sx+i, sy+j)` of a `fw × fh` window centred per
integer division at `(x, y)` (`sx = x - fw/2`), in the loop order of
`median_filter_calc_one` (window column outer, row inner). -/
def windowCoords (fw fh : ℕ) (x y : ℕ) : List (ℤ × ℤ) :=
  (pairsOuter fw fh).map (fun ij =>
    ((x : ℤ) - ((fw / 2 : ℕ) : ℤ) + ij.1, (y : ℤ) - ((fh / 2 : ℕ) : ℤ) + ij.2))

/-- `median_filter_calc_one`: for each channel, collect the channel values
of the window cells strictly inside the image (`img[(x,y)]` direct reads,
`pixel.raw()[c]`), sort them ascending, and take the element at index
`count/2`.  An empty collection panics at `counter[0]` (`none`); the sort
models `sort_by(partial_cmp)` (ascending, and on `u8` values the sorted
list is unique, so any correct sort is the one Rust produces). -/
def median_filter_calc_one (nc : ℕ) (f : MedianFilter) (x y : ℕ)
    (img : Image Pix) : Option Pix :=
  optList ((List.range nc).map (fun c =>
    (optList (((windowCoords f.width f.height x y).filter (insideImg img)).map
      (fun p => (img.index p.1.toNat p.2.toNat).bind
        (fun pix => (pix[c]? : Option ℕ))))).bind
      (fun vals => (vals.insertionSort (· ≤ ·))[vals.length / 2]?)))

/-- `Filter for MedianFilter`: fresh `width × height` output, every cell
written with `median_filter_calc_one` (`x` outer, `y` inner in the source;
each cell is written exactly once, so the resulting buffer is the row-major
table of the per-pixel results). -/
def MedianFilter.filter (nc : ℕ) (f : MedianFilter) (img : Image Pix) :
    Option (Image Pix) :=
  (optList (rowMajor img.w (fun x y => median_filter_calc_one nc f x y img) img.h)).bind
    fun d => some ⟨img.w, img.h, img.w, d⟩

/-- `box_filter_calc_one`: for each channel, sum the channel values of the
whole window sampled through `Eye::new(i, j)` (default policy), then divide
by `width*height` and cast back (`num::cast(sum / size).unwrap()`). -/
def box_filter_calc_one (nc : ℕ) (f : BoxFilter) (x y : ℕ)
    (img : Image Pix) : Option Pix :=
  let sx : ℤ := (x : ℤ) - (f.width : ℤ) / 2
  let sy : ℤ := (y : ℤ) - (f.height : ℤ) / 2
  let size : ℚ := (f.width : ℚ) * (f.height : ℚ)
  optList ((List.range nc).map (fun c =>
    (optList ((pairsOuter f.width f.height).map
      (fun ij => ((Eye.new Pix (sx + ij.1) (sy + ij.2)).look img).bind
        (fun a => (a[c]? : Option ℕ))))).bind
      (fun vals => f32ToU8 ((vals.map (fun v => (Nat.cast v : ℚ))).sum / size))))

/-- `Filter for BoxFilter`: fresh output image, every cell written with
`box_filter_calc_one`. -/
def BoxFilter.filter (nc : ℕ) (f : BoxFilter) (img : Image Pix) :
    Option (Image Pix) :=
  (optList (rowMajor img.w (fun x y => box_filter_calc_one nc f x y img) img.h)).bind
    fun d => some ⟨img.w, img.h, img.w, d⟩

/-- The flat weights of the fixed Sobel horizontal-gradient kernel. -/
def sobelKxData : List ℚ := [-1, 0, 1, -2, 0, 2, -1, 0, 1]

/-- The flat weights of the fixed Sobel vertical-gradient kernel. -/
def sobelKyData : List ℚ := [-1, -2, -1, 0, 0, 0, 1, 2, 1]

/-- `Filter for Sobel` (identical in `op/sobel.rs` and
`op/edge_detect.rs`): convolve with the two fixed 3×3 kernels, then write
every cell of a fresh output image with the per-channel saturating sum of
the two convolved images. -/
def Sobel.filter (nc : ℕ) (img : Image Pix) : Option (Image Pix) :=
  (GeneralKernel.new 3 3 sobelKxData).bind fun kernx =>
  (GeneralKernel.new 3 3 sobelKyData).bind fun kerny =>
  (Kern.filter nc kernx img).bind fun imgx =>
  (Kern.filter nc kerny img).bind fun imgy =>
  (optList (rowMajor img.w (fun x y =>
      (imgx.index x y).bind fun a =>
      (imgy.index x y).bind fun b =>
      some (a.saturating_add b)) img.h)).bind fun d =>
  some ⟨img.w, img.h, img.w, d⟩


/-- `IndexMut<(u32,u32)>`: write the buffer cell at flat offset
`stride * y + x` (out-of-buffer writes cannot occur in the filter loops on
the images they allocate). -/
def Image.setPix (img : Image α) (x y : ℕ) (p : α) : Image α :=
  { img with data := img.data.set (img.stride * y + x) p }

/-- `Image::new(width, height)`: `stride = width`, and a buffer of
`width * height` cells whose contents are uninitialized (`none`). -/
def Image.newUninit (w h : ℕ) : Image (Option α) :=
  ⟨w, h, w, List.replicate (w * h) none⟩

/-- The write pattern of the kernel filter loops:
`for y in 0..height { for x in 0..width { ret[(x, y)] = f(x, y) } }`
over a freshly allocated (uninitialized) output image. -/
def writeLoopYX (w h : ℕ) (f : ℕ → ℕ → α) : Image (Option α) :=
  (List.range h).foldl
    (fun im y => (List.range w).foldl (fun im x => im.setPix x y (some (f x y))) im)
    (Image.newUninit w h)

/-- The write pattern of the median/box/Sobel filter loops:
`for x in 0..width { for y in 0..height { ret[(x, y)] = f(x, y) } }`
over a freshly allocated (uninitialized) output image. -/
def writeLoopXY (w h : ℕ) (f : ℕ → ℕ → α) : Image (Option α) :=
  (List.range w).foldl
    (fun im x => (List.range h).foldl (fun im y => im.setPix x y (some (f x y))) im)
    (Image.newUninit w h)


theorem rowMajor_length (w : ℕ) (g : ℕ → ℕ → α) (h : ℕ) :
    (rowMajor w g h).length = w * h := by
  induction h with
  | zero => simp [rowMajor]
  | succ n ih => simp [rowMajor, ih]; ring

theorem rowMajor_getElem? (w : ℕ) (g : ℕ → ℕ → α) {h x y : ℕ}
    (hx : x < w) (hy : y < h) : (rowMajor w g h)[w * y + x]? = some (g x y) := by
  induction h with
  | zero => omega
  | succ n ih =>
    by_cases hyn : y < n
    · rw [rowMajor, List.getElem?_append_left]
      · exact ih hyn
      · rw [rowMajor_length]
        have h1 : w * (y + 1) ≤ w * n := Nat.mul_le_mul_left w hyn
        have h2 : w * (y + 1) = w * y + w := by ring
        omega
    · have hyeq : y = n := by omega
      subst hyeq
      rw [rowMajor, List.getElem?_append_right (by rw [rowMajor_length]; omega)]
      rw [rowMajor_length, Nat.add_sub_cancel_left, List.getElem?_map,
        List.getElem?_range hx]
      rfl

theorem optList_append (l₁ l₂ : List (Option α)) :
    optList (l₁ ++ l₂) =
      (optList l₁).bind (fun a => (optList l₂).map (fun b => a ++ b)) := by
  induction l₁ with
  | nil =>
    show optList l₂ = (optList l₂).map (fun b => [] ++ b)
    cases optList l₂ <;> simp
  | cons o t ih =>
    cases o with
    | none => simp [optList]
    | some a =>
      show (optList (t ++ l₂)).map (a :: ·) = _
      rw [ih]
      show _ = ((optList t).map (a :: ·)).bind fun x => (optList l₂).map (x ++ ·)
      cases optList t <;> cases optList l₂ <;> simp

theorem optList_map_some (l : List β) (F : β → Option γ) (G : β → γ)
    (hF : ∀ b ∈ l, F b = some (G b)) : optList (l.map F) = some (l.map G) := by
  induction l with
  | nil => simp [optList]
  | cons b t ih =>
    rw [List.map_cons, hF b (by simp)]
    show (optList (t.map F)).map (G b :: ·) = _
    rw [ih (fun b hb => hF b (by simp [hb]))]
    rfl

theorem optList_rowMajor (w h : ℕ) (F : ℕ → ℕ → Option γ) (G : ℕ → ℕ → γ)
    (hF : ∀ x y, x < w → y < h → F x y = some (G x y)) :
    optList (rowMajor w F h) = some (rowMajor w G h) := by
  induction h with
  | zero => simp [rowMajor, optList]
  | succ n ih =>
    rw [rowMajor, rowMajor, optList_append,
      ih (fun x y hx hy => hF x y hx (by omega)),
      optList_map_some _ _ (fun x => G x n)
        (fun x hx => hF x n (List.mem_range.mp hx) (by omega))]
    rfl

theorem map_range_getD (l : List γ) (d : γ) :
    (List.range l.length).map (fun i => l.getD i d) = l := by
  induction l with
  | nil => simp
  | cons a t ih =>
    rw [List.length_cons, List.range_succ_eq_map, List.map_cons, List.map_map]
    rw [List.getD_cons_zero]
    have h1 : List.map ((fun i => (a :: t).getD i d) ∘ Nat.succ) (List.range t.length)
        = List.map (fun i => t.getD i d) (List.range t.length) := by
      apply List.map_congr_left
      intro i _
      simp [Function.comp, List.getD_cons_succ]
    rw [h1, ih]

theorem sum_map_range (n : ℕ) (f : ℕ → ℚ) :
    ((List.range n).map f).sum = ∑ i ∈ Finset.range n, f i := by
  induction n with
  | zero => simp
  | succ m ih => rw [List.range_succ, List.map_append, List.sum_append,
      Finset.sum_range_succ, ih]; simp

theorem sum_map_pairsOuter (a b : ℕ) (F : ℕ × ℕ → ℚ) :
    ((pairsOuter a b).map F).sum =
      ∑ i ∈ Finset.range a, ∑ j ∈ Finset.range b, F (i, j) := by
  induction a with
  | zero => simp [pairsOuter]
  | succ m ih =>
    rw [pairsOuter, List.map_append, List.sum_append, ih, Finset.sum_range_succ,
      List.map_map]
    congr 1

theorem mem_pairsOuter {a b : ℕ} {ij : ℕ × ℕ} :
    ij ∈ pairsOuter a b ↔ ij.1 < a ∧ ij.2 < b := by
  induction a with
  | zero => simp [pairsOuter]
  | succ m ih =>
    simp only [pairsOuter, List.mem_append, ih, List.mem_map, List.mem_range]
    constructor
    · rintro (⟨h1, h2⟩ | ⟨j, hj, rfl⟩)
      · exact ⟨by omega, h2⟩
      · exact ⟨by simp, by simpa using hj⟩
    · rintro ⟨h1, h2⟩
      by_cases hm : ij.1 < m
      · exact Or.inl ⟨hm, h2⟩
      · refine Or.inr ⟨ij.2, h2, ?_⟩
        have hm2 : ij.1 = m := by omega
        cases ij
        simp_all

theorem zipWith_add_getD (l₁ l₂ : List ℚ) (c : ℕ) (hc : c < l₁.length)
    (hlen : l₁.length = l₂.length) :
    (l₁.zipWith (· + ·) l₂).getD c 0 = l₁.getD c 0 + l₂.getD c 0 := by
  induction l₁ generalizing l₂ c with
  | nil => simp at hc
  | cons a t ih =>
    cases l₂ with
    | nil => simp at hlen
    | cons b t₂ =>
      cases c with
      | zero => simp
      | succ m =>
        simp only [List.zipWith_cons_cons, List.getD_cons_succ]
        exact ih t₂ m (by simpa using hc) (by simpa using hlen)

theorem Image.pixelAt_pos (img : Image α) (hwf : img.wf) {x y : ℕ}
    (hx : x < img.w) (hy : y < img.h) :
    img.pixelAt x y = img.data[img.w * y + x]? := by
  unfold Image.pixelAt Image.index
  rw [if_pos ⟨hx, hy⟩, hwf.1]

theorem Image.pixelAt_of_lt (img : Image α) {x y : ℕ}
    (hx : x < img.w) (hy : y < img.h) :
    img.pixelAt x y = img.index x y := if_pos ⟨hx, hy⟩

theorem offset_lt_len (img : Image α) (hwf : img.wf) {x y : ℕ}
    (hx : x < img.w) (hy : y < img.h) : img.w * y + x < img.data.length := by
  rw [hwf.2]
  have h1 : img.w * (y + 1) ≤ img.w * img.h := Nat.mul_le_mul_left _ (by omega)
  have h2 : img.w * (y + 1) = img.w * y + img.w := by ring
  omega

theorem Image.pixelAt_isSome (img : Image α) (hwf : img.wf) {x y : ℕ}
    (hx : x < img.w) (hy : y < img.h) : (img.pixelAt x y).isSome := by
  rw [img.pixelAt_pos hwf hx hy,
    List.getElem?_eq_getElem (offset_lt_len img hwf hx hy)]
  rfl

theorem clampAxis_lt {dim : ℕ} (hd : 0 < dim) (x : ℤ) : clampAxis dim x < dim := by
  unfold clampAxis
  omega

theorem clampAxis_inbounds {dim : ℕ} {x : ℤ} (h0 : 0 ≤ x) (h1 : x < (dim : ℤ)) :
    clampAxis dim x = x.toNat := by
  unfold clampAxis
  omega

theorem look_extend (img : Image α) (x y : ℤ) :
    Eye.look ⟨x, y, AlterType.extend⟩ img =
      img.index (clampAxis img.w x) (clampAxis img.h y) := by
  unfold Eye.look
  by_cases hin : 0 ≤ x ∧ x < (img.w : ℤ) ∧ 0 ≤ y ∧ y < (img.h : ℤ)
  · rw [if_pos hin, clampAxis_inbounds hin.1 hin.2.1,
      clampAxis_inbounds hin.2.2.1 hin.2.2.2]
  · rw [if_neg hin]

theorem look_extend_pixelAt (img : Image α) (hw : 0 < img.w) (hh : 0 < img.h)
    (x y : ℤ) :
    Eye.look ⟨x, y, AlterType.extend⟩ img =
      img.pixelAt (clampAxis img.w x) (clampAxis img.h y) := by
  rw [look_extend, img.pixelAt_of_lt (clampAxis_lt hw x) (clampAxis_lt hh y)]

theorem look_extend_some (img : Image Pix) (hwf : img.wf) (hw : 0 < img.w)
    (hh : 0 < img.h) (x y : ℤ) :
    Eye.look ⟨x, y, AlterType.extend⟩ img = some (extendRead img x y) := by
  rw [look_extend_pixelAt img hw hh]
  unfold extendRead
  obtain ⟨p, hp⟩ := Option.isSome_iff_exists.mp
    (img.pixelAt_isSome hwf (clampAxis_lt hw x) (clampAxis_lt hh y))
  rw [hp]
  rfl

theorem mirrorCoord_nonneg {dim : ℕ} (hd : 0 < dim) (x : ℤ) :
    0 ≤ mirrorCoord dim x := by
  have h1 : (0 : ℤ) < dim := by exact_mod_cast hd
  have e1 := Int.emod_lt_of_pos (-x) h1
  have e2 := @Int.emod_nonneg (-x) (dim : ℤ) (by omega)
  have e3 := Int.emod_lt_of_pos x h1
  have e4 := @Int.emod_nonneg x (dim : ℤ) (by omega)
  simp only [mirrorCoord]
  split_ifs <;> omega

theorem mirrorCoord_of_inbounds {dim : ℕ} {x : ℤ} (h0 : 0 ≤ x)
    (h1 : x < (dim : ℤ)) : mirrorCoord dim x = x := by
  simp only [mirrorCoord]
  split_ifs <;> omega

theorem look_mirror (img : Image α) (hw : 0 < img.w) (hh : 0 < img.h)
    (x y : ℤ) (hx : mirrorCoord img.w x < (img.w : ℤ))
    (hy : mirrorCoord img.h y < (img.h : ℤ)) :
    Eye.look ⟨x, y, AlterType.mirror⟩ img =
      img.pixelAt (mirrorCoord img.w x).toNat (mirrorCoord img.h y).toNat := by
  have hnx := mirrorCoord_nonneg hw x
  have hny := mirrorCoord_nonneg hh y
  rw [img.pixelAt_of_lt (by omega) (by omega)]
  unfold Eye.look
  by_cases hin : 0 ≤ x ∧ x < (img.w : ℤ) ∧ 0 ≤ y ∧ y < (img.h : ℤ)
  · rw [if_pos hin, mirrorCoord_of_inbounds hin.1 hin.2.1,
      mirrorCoord_of_inbounds hin.2.2.1 hin.2.2.2]
  · rw [if_neg hin]

/-- C1 (as stated, counterexample): sampling the 3×3 image with `Mirror` at
`(6, 0)`.  Per axis the code computes `6 → 3 - (6 % 3) = 3` (and `0 → 0`),
but there is no pixel at `(3, 0)`; the claim's "returns the pixel at the
computed coordinate" therefore fails: the flat-buffer access at offset
`3*0 + 3` returns the pixel `(0, 1) = [4]` instead. -/
theorem c1_mirror_counterexample :
    (Eye.new Pix 6 0).setMirror.look img3 = some [4] ∧
    mirrorCoord 3 6 = 3 ∧ mirrorCoord 3 0 = 0 ∧
    img3.pixelAt (mirrorCoord 3 6).toNat (mirrorCoord 3 0).toNat = none ∧
    img3.pixelAt 0 1 = some [4] := by
  refine ⟨?_, ?_, ?_, ?_, ?_⟩ <;> with_unfolding_all decide

/-- C1 (amended): for every image and integer coordinate whose per-axis
`Mirror` computation (`x → -x` when negative, then
`x → dim - (x % dim)` when strictly greater than the dimension) lands
strictly inside the image, the sampler returns the pixel at that computed
coordinate; when the computed coordinate is not inside the grid (e.g. it
equals the dimension) the access goes out of the pixel grid instead.  In
particular, on the 3×3 gray image `[1,2,3;4,5,6;7,8,9]`, sampling at
`(-1, 1)` returns the value at `(1, 1)`, which is `5`. -/
theorem c1_mirror_amended :
    (∀ (α : Type) (img : Image α) (x y : ℤ), 0 < img.w → 0 < img.h →
      mirrorCoord img.w x < (img.w : ℤ) → mirrorCoord img.h y < (img.h : ℤ) →
      (Eye.new α x y).setMirror.look img =
        img.pixelAt (mirrorCoord img.w x).toNat (mirrorCoord img.h y).toNat) ∧
    (Eye.new Pix (-1) 1).setMirror.look img3 = some [5] ∧
    img3.pixelAt 1 1 = some [5] := by
  refine ⟨?_, ?_, ?_⟩
  · intro α img x y hw hh hx hy
    exact look_mirror img hw hh x y hx hy
  · with_unfolding_all decide
  · with_unfolding_all decide

theorem c1_mirror_amended_witness :
    (0 < img3.w ∧ 0 < img3.h ∧ mirrorCoord img3.w (-1) < (img3.w : ℤ) ∧
      mirrorCoord img3.h 1 < (img3.h : ℤ)) ∧
    (Eye.new Pix (-1) 1).setMirror.look img3 =
      img3.pixelAt (mirrorCoord img3.w (-1)).toNat (mirrorCoord img3.h 1).toNat :=
  ⟨by with_unfolding_all decide,
   c1_mirror_amended.1 Pix img3 (-1) 1 (by with_unfolding_all decide)
     (by with_unfolding_all decide) (by with_unfolding_all decide)
     (by with_unfolding_all decide)⟩

/-- C7: with `Extend` policy, each axis is clamped independently into
`[0, dim-1]` and the pixel at the clamped coordinate is returned;
`Eye::new` leaves the default policy `Extend`; an in-bounds coordinate is
read directly from the image regardless of policy; and on the 3×3 gray
image, sampling at `(100, 100)` returns `9` and at `(1, -100)` returns
`2`. -/
theorem c7_extend_policy :
    (∀ (α : Type) (img : Image α) (x y : ℤ), 0 < img.w → 0 < img.h →
      (Eye.new α x y).setExtend.look img =
        img.pixelAt (clampAxis img.w x) (clampAxis img.h y)) ∧
    (∀ (α : Type) (x y : ℤ), (Eye.new α x y).alter_type = AlterType.extend) ∧
    (∀ (α : Type) (img : Image α) (a : AlterType α) (x y : ℤ),
      0 ≤ x → x < (img.w : ℤ) → 0 ≤ y → y < (img.h : ℤ) →
      Eye.look ⟨x, y, a⟩ img = img.pixelAt x.toNat y.toNat) ∧
    (Eye.new Pix 100 100).look img3 = some [9] ∧
    (Eye.new Pix 1 (-100)).look img3 = some [2] := by
  refine ⟨?_, ?_, ?_, ?_, ?_⟩
  · intro α img x y hw hh
    exact look_extend_pixelAt img hw hh x y
  · intro α x y
    rfl
  · intro α img a x y h0 h1 h2 h3
    unfold Eye.look
    rw [if_pos ⟨h0, h1, h2, h3⟩, Image.pixelAt_of_lt img (by omega) (by omega)]
  · with_unfolding_all decide
  · with_unfolding_all decide

theorem c7_extend_policy_witness :
    (0 < img3.w ∧ 0 < img3.h) ∧
    (Eye.new Pix 100 100).setExtend.look img3 =
      img3.pixelAt (clampAxis img3.w 100) (clampAxis img3.h 100) :=
  ⟨by with_unfolding_all decide,
   c7_extend_policy.1 Pix img3 100 100 (by with_unfolding_all decide)
     (by with_unfolding_all decide)⟩

/-- C9 (as stated, counterexample): `from_raw` on a slice of length 2 for a
1-channel pixel type does NOT fail — it returns the pixel built from the
first channel value. -/
theorem c9_from_raw_counterexample :
    Pixel.from_raw 1 [1, 2] = some [1] := by
  with_unfolding_all decide

/-- C9 (amended): `from_raw` fails (index panic in the copy loop) iff the
slice is SHORTER than `channels()`; a slice of exactly `channels()` values
yields the pixel with those values in order; a longer slice succeeds too,
keeping the first `channels()` values. -/
theorem c9_from_raw_amended (channels : ℕ) (data : List ℕ) :
    (Pixel.from_raw channels data = none ↔ data.length < channels) ∧
    (data.length = channels → Pixel.from_raw channels data = some data) ∧
    (channels ≤ data.length →
      Pixel.from_raw channels data = some (data.take channels)) := by
  refine ⟨?_, ?_, ?_⟩
  · unfold Pixel.from_raw
    split_ifs with h
    · simp only [reduceCtorEq, false_iff]
      omega
    · simp only [true_iff]
      omega
  · intro h
    unfold Pixel.from_raw
    rw [if_pos (le_of_eq h.symm), ← h, List.take_length]
  · intro h
    unfold Pixel.from_raw
    rw [if_pos h]

theorem c9_from_raw_amended_witness :
    ([5, 7] : List ℕ).length = 2 ∧ Pixel.from_raw 2 [5, 7] = some [5, 7] :=
  ⟨by with_unfolding_all decide,
   (c9_from_raw_amended 2 [5, 7]).2.1 (by with_unfolding_all decide)⟩

/-- C3 (as stated, counterexample): pixel-with-scalar addition on the gray
`u8` pixel `[1]` with scalar `-2` does not clamp the `-1` result to the
minimum: the cast `T::from(a+b).unwrap()` panics. -/
theorem c3_scalar_clamp_counterexample :
    Pix.addScalar [1] (-2) = none := by
  with_unfolding_all decide

/-- C3 (amended): per channel, scalar `Add` clamps to the maximum only
(a result above 255 yields 255; an in-range result is truncated; a result
below 0 panics); scalar `Sub` clamps to the minimum only (below 0 yields 0;
in-range truncates; above 255 panics); scalar `Mul` clamps to the maximum
only (above 255 yields 255; in-range truncates; below 0 panics).  The
pixel-level operators apply the per-channel operation to every channel. -/
theorem c3_scalar_clamp_amended (v : ℕ) (s : ℚ) :
    ((255 : ℚ) < (v : ℚ) + s → scalarAddChan v s = some 255) ∧
    (0 ≤ (v : ℚ) + s → (v : ℚ) + s ≤ 255 →
      scalarAddChan v s = some ((v : ℚ) + s).floor.toNat) ∧
    ((v : ℚ) + s < 0 → scalarAddChan v s = none) ∧
    ((v : ℚ) - s < 0 → scalarSubChan v s = some 0) ∧
    (0 ≤ (v : ℚ) - s → (v : ℚ) - s ≤ 255 →
      scalarSubChan v s = some ((v : ℚ) - s).floor.toNat) ∧
    ((255 : ℚ) < (v : ℚ) - s → scalarSubChan v s = none) ∧
    ((255 : ℚ) < (v : ℚ) * s → scalarMulChan v s = some 255) ∧
    (0 ≤ (v : ℚ) * s → (v : ℚ) * s ≤ 255 →
      scalarMulChan v s = some ((v : ℚ) * s).floor.toNat) ∧
    ((v : ℚ) * s < 0 → scalarMulChan v s = none) ∧
    (∀ p : Pix, Pix.addScalar p s = p.mapM (scalarAddChan · s)) ∧
    (∀ p : Pix, Pix.subScalar p s = p.mapM (scalarSubChan · s)) ∧
    (∀ p : Pix, Pix.mulScalar p s = p.mapM (scalarMulChan · s)) := by
  unfold scalarAddChan scalarSubChan scalarMulChan f32ToU8
  refine ⟨fun h => by rw [if_pos h], fun h1 h2 => ?_, fun h => ?_,
    fun h => by rw [if_pos h], fun h1 h2 => ?_, fun h => ?_,
    fun h => by rw [if_pos h], fun h1 h2 => ?_, fun h => ?_,
    fun p => rfl, fun p => rfl, fun p => rfl⟩
  · rw [if_neg (not_lt.mpr h2), if_pos ⟨h1, h2⟩]
  · rw [if_neg (by intro hc; linarith), if_neg (by rintro ⟨h0, _⟩; linarith)]
  · rw [if_neg (not_lt.mpr h1), if_pos ⟨h1, h2⟩]
  · rw [if_neg (by intro hc; linarith), if_neg (by rintro ⟨_, h0⟩; linarith)]
  · rw [if_neg (not_lt.mpr h2), if_pos ⟨h1, h2⟩]
  · rw [if_neg (by intro hc; linarith), if_neg (by rintro ⟨h0, _⟩; linarith)]

theorem c3_scalar_clamp_amended_witness :
    ((255 : ℚ) < ((200 : ℕ) : ℚ) + 100 ∧ scalarAddChan 200 100 = some 255) ∧
    (((5 : ℕ) : ℚ) - 300 < 0 ∧ scalarSubChan 5 300 = some 0) :=
  ⟨⟨by with_unfolding_all decide,
    (c3_scalar_clamp_amended 200 100).1 (by with_unfolding_all decide)⟩,
   ⟨by with_unfolding_all decide,
    (c3_scalar_clamp_amended 5 300).2.2.2.1 (by with_unfolding_all decide)⟩⟩

theorem Eye.new_setExtend (α : Type) (x y : ℤ) :
    (Eye.new α x y).setExtend = ⟨x, y, AlterType.extend⟩ := rfl

theorem Eye.new_setMirror (α : Type) (x y : ℤ) :
    (Eye.new α x y).setMirror = ⟨x, y, AlterType.mirror⟩ := rfl

theorem Eye.new_eq (α : Type) (x y : ℤ) :
    Eye.new α x y = ⟨x, y, AlterType.extend⟩ := rfl

theorem extendRead_mem (img : Image Pix) (hwf : img.wf) (hw : 0 < img.w)
    (hh : 0 < img.h) (x y : ℤ) : extendRead img x y ∈ img.data := by
  unfold extendRead
  rw [img.pixelAt_pos hwf (clampAxis_lt hw x) (clampAxis_lt hh y),
    List.getElem?_eq_getElem
      (offset_lt_len img hwf (clampAxis_lt hw x) (clampAxis_lt hh y))]
  exact List.getElem_mem _

theorem extendRead_length (nc : ℕ) (img : Image Pix) (hwf : img.wf)
    (hchan : img.chanWf nc) (hw : 0 < img.w) (hh : 0 < img.h) (x y : ℤ) :
    (extendRead img x y).length = nc :=
  hchan _ (extendRead_mem img hwf hw hh x y)

theorem getD_map_mul (l : List ℕ) (b : ℚ) {c : ℕ} (hc : c < l.length) :
    (l.map (fun s => (Nat.cast s : ℚ) * b)).getD c 0 = (l.getD c 0 : ℚ) * b := by
  rw [List.getD_eq_getElem?_getD, List.getElem?_map,
    List.getElem?_eq_getElem hc, List.getD_eq_getElem?_getD,
    List.getElem?_eq_getElem hc]
  rfl

theorem ratFloor_natCast_toNat (v : ℕ) : ((v : ℚ)).floor.toNat = v := by
  have h : ((v : ℚ)).floor = ⌊(v : ℚ)⌋ := rfl
  rw [h, Int.floor_natCast, Int.toNat_ofNat]

theorem clip_from_f32_natCast {v : ℕ} (hv : v ≤ 255) :
    clip_from_f32 (v : ℚ) = v := by
  unfold clip_from_f32
  rw [if_neg (not_lt.mpr (Nat.cast_nonneg v)),
    if_neg (not_lt.mpr (by exact_mod_cast hv))]
  exact ratFloor_natCast_toNat v

theorem kernAccum_eq (nc : ℕ) (k : Kern) (img : Image Pix) (hwf : img.wf)
    (hchan : img.chanWf nc) (hw : 0 < img.w) (hh : 0 < img.h) (sx sy : ℤ)
    (cells : List (ℕ × ℕ)) (acc : List ℚ) (hacc : acc.length = nc) :
    kernAccum k img sx sy cells acc =
      some ((List.range nc).map (fun c => acc.getD c 0 +
        (cells.map (fun ij =>
          chanQ (extendRead img (ij.1 + sx) (ij.2 + sy)) c *
            k.idx ij.1 ij.2)).sum)) := by
  induction cells generalizing acc with
  | nil =>
    simp only [kernAccum, List.map_nil, List.sum_nil, add_zero]
    rw [← hacc, map_range_getD]
  | cons ij rest ih =>
    rw [kernAccum, Eye.new_setExtend, look_extend_some img hwf hw hh,
      Option.some_bind]
    rw [ih _ (by rw [List.length_zipWith, List.length_map,
      extendRead_length nc img hwf hchan hw hh, hacc, min_self])]
    congr 1
    apply List.map_congr_left
    intro c hc
    have hcn : c < nc := List.mem_range.mp hc
    rw [zipWith_add_getD _ _ _ (by omega)
      (by rw [List.length_map, extendRead_length nc img hwf hchan hw hh, hacc]),
      getD_map_mul _ _
        (by rw [extendRead_length nc img hwf hchan hw hh]; omega)]
    simp only [List.map_cons, List.sum_cons, chanQ]
    ring

theorem kern_calc_eq (nc : ℕ) (k : Kern) (img : Image Pix) (hwf : img.wf)
    (hchan : img.chanWf nc) {x y : ℕ} (hx : x < img.w) (hy : y < img.h) :
    kern_calc_one_pos nc k x y img = some (convSpec nc k img x y) := by
  have hw : 0 < img.w := by omega
  have hh : 0 < img.h := by omega
  simp only [kern_calc_one_pos]
  rw [kernAccum_eq nc k img hwf hchan hw hh _ _ _ _ (List.length_replicate _ _),
    Option.some_bind]
  unfold Pixel.from_raw
  rw [if_pos (by simp)]
  rw [List.take_of_length_le (by simp)]
  unfold convSpec
  rw [List.map_map]
  congr 1
  apply List.map_congr_left
  intro c hc
  simp only [Function.comp]
  congr 1
  have hrep : (List.replicate nc (0 : ℚ)).getD c 0 = 0 := by
    rw [List.getD_eq_getElem?_getD, List.getElem?_replicate,
      if_pos (List.mem_range.mp hc)]
    rfl
  rw [hrep, zero_add, sum_map_pairsOuter]
  unfold convChan
  apply Finset.sum_congr rfl
  intro i _
  apply Finset.sum_congr rfl
  intro j _
  have e1 : (i : ℤ) + ((x : ℤ) - ((k.width / 2 : ℕ) : ℤ)) =
      (x : ℤ) + (i : ℤ) - ((k.width / 2 : ℕ) : ℤ) := by ring
  have e2 : (j : ℤ) + ((y : ℤ) - ((k.height / 2 : ℕ) : ℤ)) =
      (y : ℤ) + (j : ℤ) - ((k.height / 2 : ℕ) : ℤ) := by ring
  rw [e1, e2, mul_comm]

theorem kern_filter_eq (nc : ℕ) (k : Kern) (img : Image Pix) (hwf : img.wf)
    (hchan : img.chanWf nc) :
    Kern.filter nc k img = some ⟨img.w, img.h, img.w,
      rowMajor img.w (fun x y => convSpec nc k img x y) img.h⟩ := by
  unfold Kern.filter
  rw [optList_rowMajor img.w img.h _ (fun x y => convSpec nc k img x y)
    (fun x y hx hy => kern_calc_eq nc k img hwf hchan hx hy), Option.some_bind]

/-- C2: the convolution filter, on any well-formed image and any odd-sized
kernel, returns an image of identical width and height whose pixel `(x, y)`
is, channel-wise, the sum over all kernel cells `(i, j)` of the weight at
`(i, j)` times the channel value sampled at `(x + i - width/2,
y + j - height/2)` through an `Extend`-policy sampler, accumulated exactly
(rationals model the `f32` accumulator) and clamped into the `u8` range;
the output is a pure per-pixel map, so each output pixel's accumulation is
independent of every other. -/
theorem c2_convolution (nc : ℕ) (k : Kern) (img : Image Pix)
    (hwf : img.wf) (hchan : img.chanWf nc) (_hk : k.wf)
    (_how : k.width % 2 = 1) (_hoh : k.height % 2 = 1) :
    Kern.filter nc k img = some ⟨img.w, img.h, img.w,
      rowMajor img.w (fun x y => convSpec nc k img x y) img.h⟩ ∧
    ∀ x y, x < img.w → y < img.h →
      (Kern.filter nc k img).bind (fun ret => ret.pixelAt x y) =
        some (convSpec nc k img x y) := by
  have h1 := kern_filter_eq nc k img hwf hchan
  refine ⟨h1, fun x y hx hy => ?_⟩
  rw [h1, Option.some_bind]
  rw [Image.pixelAt_pos ⟨img.w, img.h, img.w,
    rowMajor img.w (fun x y => convSpec nc k img x y) img.h⟩
    ⟨rfl, rowMajor_length _ _ _⟩ hx hy]
  exact rowMajor_getElem? _ _ hx hy

theorem c2_convolution_witness :
    (img3.wf ∧ img3.chanWf 1 ∧ (Kern.mk 1 1 [[2]]).wf ∧ (1 : ℕ) % 2 = 1) ∧
    Kern.filter 1 ⟨1, 1, [[2]]⟩ img3 = some ⟨img3.w, img3.h, img3.w,
      rowMajor img3.w (fun x y => convSpec 1 ⟨1, 1, [[2]]⟩ img3 x y) img3.h⟩ :=
  ⟨by with_unfolding_all decide,
   (c2_convolution 1 ⟨1, 1, [[2]]⟩ img3 (by with_unfolding_all decide)
     (by with_unfolding_all decide) (by with_unfolding_all decide)
     (by with_unfolding_all decide) (by with_unfolding_all decide)).1⟩

theorem rowMajor_reconstruct (w h : ℕ) (data : List α) (d : α)
    (hl : data.length = w * h) :
    rowMajor w (fun x y => data.getD (w * y + x) d) h = data := by
  apply List.ext_getElem?
  intro n
  by_cases hn : n < w * h
  · have hw : 0 < w := by
      rcases Nat.eq_zero_or_pos w with h0 | h0
      · subst h0
        simp at hn
      · exact h0
    have hx : n % w < w := Nat.mod_lt _ hw
    have hy : n / w < h :=
      Nat.div_lt_iff_lt_mul hw |>.mpr (by rw [Nat.mul_comm]; exact hn)
    have hdecomp : w * (n / w) + n % w = n := Nat.div_add_mod n w
    have hnlen : n < data.length := by rw [hl]; exact hn
    calc (rowMajor w (fun x y => data.getD (w * y + x) d) h)[n]?
        = (rowMajor w (fun x y => data.getD (w * y + x) d) h)[w * (n / w) + n % w]? := by
          rw [hdecomp]
      _ = some (data.getD (w * (n / w) + n % w) d) := rowMajor_getElem? _ _ hx hy
      _ = some (data.getD n d) := by rw [hdecomp]
      _ = data[n]? := by
          rw [List.getD_eq_getElem?_getD, List.getElem?_eq_getElem hnlen]
          rfl
  · have h1 : (rowMajor w (fun x y => data.getD (w * y + x) d) h).length ≤ n := by
      rw [rowMajor_length]
      omega
    have h2 : data.length ≤ n := by rw [hl]; omega
    rw [List.getElem?_eq_none h1, List.getElem?_eq_none h2]

theorem convSpec_identity (nc : ℕ) (img : Image Pix) (hwf : img.wf)
    (hchan : img.chanWf nc) (hu8 : img.u8Wf) {x y : ℕ}
    (hx : x < img.w) (hy : y < img.h) :
    convSpec nc ⟨1, 1, [[1]]⟩ img x y = img.data.getD (img.w * y + x) [] := by
  have hw : 0 < img.w := by omega
  have hh : 0 < img.h := by omega
  set p : Pix := img.data.getD (img.w * y + x) [] with hp
  have hpix : p ∈ img.data := by
    rw [hp, List.getD_eq_getElem?_getD,
      List.getElem?_eq_getElem (offset_lt_len img hwf hx hy)]
    exact List.getElem_mem _
  have hread : extendRead img ((x : ℤ) + ((0 : ℕ) : ℤ) - ((1 / 2 : ℕ) : ℤ))
      ((y : ℤ) + ((0 : ℕ) : ℤ) - ((1 / 2 : ℕ) : ℤ)) = p := by
    have ex : ((x : ℤ) + ((0 : ℕ) : ℤ) - ((1 / 2 : ℕ) : ℤ)) = (x : ℤ) := by
      norm_num
    have ey : ((y : ℤ) + ((0 : ℕ) : ℤ) - ((1 / 2 : ℕ) : ℤ)) = (y : ℤ) := by
      norm_num
    rw [ex, ey]
    unfold extendRead
    rw [clampAxis_inbounds (by omega) (by exact_mod_cast hx),
      clampAxis_inbounds (by omega) (by exact_mod_cast hy),
      Int.toNat_ofNat, Int.toNat_ofNat,
      img.pixelAt_pos hwf hx hy, hp,
      List.getD_eq_getElem?_getD]
  have hlen : p.length = nc := hchan _ hpix
  have heach : ∀ c ∈ List.range p.length,
      clip_from_f32 (chanQ p c) = p.getD c 0 := by
    intro c hc
    have hcl : c < p.length := List.mem_range.mp hc
    have hvmem : p.getD c 0 ∈ p := by
      rw [List.getD_eq_getElem?_getD, List.getElem?_eq_getElem hcl]
      exact List.getElem_mem _
    have hvle : p.getD c 0 ≤ 255 := hu8 _ hpix _ hvmem
    unfold chanQ
    exact clip_from_f32_natCast hvle
  unfold convSpec convChan
  rw [show (Kern.mk 1 1 [[1]]).width = 1 from rfl,
    show (Kern.mk 1 1 [[1]]).height = 1 from rfl]
  simp only [Finset.sum_range_one]
  rw [show (Kern.mk 1 1 [[1]]).idx 0 0 = 1 from rfl]
  simp only [one_mul]
  rw [hread, ← hlen, List.map_congr_left heach, map_range_getD]

theorem c8_identity_kernel (nc : ℕ) (img : Image Pix) (hwf : img.wf)
    (hchan : img.chanWf nc) (hu8 : img.u8Wf) :
    GeneralKernel.new 1 1 [1] = some ⟨1, 1, [[1]]⟩ ∧
    Kern.filter nc ⟨1, 1, [[1]]⟩ img = some img := by
  refine ⟨by with_unfolding_all decide, ?_⟩
  rw [kern_filter_eq nc _ img hwf hchan]
  congr 1
  have hdata : rowMajor img.w (fun x y => convSpec nc ⟨1, 1, [[1]]⟩ img x y) img.h
      = img.data := by
    have hcongr : ∀ g₁ g₂ : ℕ → ℕ → Pix, (∀ x y, x < img.w → y < img.h →
        g₁ x y = g₂ x y) → rowMajor img.w g₁ img.h = rowMajor img.w g₂ img.h := by
      intro g₁ g₂ hg
      have := optList_rowMajor img.w img.h (fun x y => some (g₁ x y)) g₂
        (fun x y hx hy => congrArg some (hg x y hx hy))
      have h2 := optList_rowMajor img.w img.h (fun x y => some (g₁ x y)) g₁
        (fun x y hx hy => rfl)
      rw [this] at h2
      exact (Option.some_inj.mp h2).symm
    rw [hcongr _ (fun x y => img.data.getD (img.w * y + x) [])
      (fun x y hx hy => convSpec_identity nc img hwf hchan hu8 hx hy)]
    exact rowMajor_reconstruct img.w img.h img.data [] hwf.2
  cases img with
  | mk w h stride data =>
    obtain ⟨hs, _⟩ := hwf
    simp only at hs hdata
    rw [hdata, hs]

theorem c8_identity_kernel_witness :
    (img3.wf ∧ img3.chanWf 1 ∧ img3.u8Wf) ∧
    Kern.filter 1 ⟨1, 1, [[1]]⟩ img3 = some img3 :=
  ⟨by with_unfolding_all decide,
   (c8_identity_kernel 1 img3 (by with_unfolding_all decide)
     (by with_unfolding_all decide) (by with_unfolding_all decide)).2⟩

theorem index_mk_rowMajor (w h : ℕ) (g : ℕ → ℕ → α) {x y : ℕ}
    (hx : x < w) (hy : y < h) :
    (Image.mk w h w (rowMajor w g h)).index x y = some (g x y) := by
  unfold Image.index
  exact rowMajor_getElem? _ _ hx hy

/-- C5: the Sobel filter equals, at every pixel, the per-channel saturating
addition of the convolution of the input with the fixed horizontal-gradient
kernel `[-1,0,1; -2,0,2; -1,0,1]` and with the fixed vertical-gradient
kernel `[-1,-2,-1; 0,0,0; 1,2,1]`, both applied through the general
convolution algorithm (`convSpec`) — not a magnitude/hypotenuse
combination. -/
theorem c5_sobel (nc : ℕ) (img : Image Pix) (hwf : img.wf)
    (hchan : img.chanWf nc) :
    GeneralKernel.new 3 3 sobelKxData =
      some ⟨3, 3, [[-1, 0, 1], [-2, 0, 2], [-1, 0, 1]]⟩ ∧
    GeneralKernel.new 3 3 sobelKyData =
      some ⟨3, 3, [[-1, -2, -1], [0, 0, 0], [1, 2, 1]]⟩ ∧
    Sobel.filter nc img = some ⟨img.w, img.h, img.w,
      rowMajor img.w (fun x y =>
        (convSpec nc ⟨3, 3, [[-1, 0, 1], [-2, 0, 2], [-1, 0, 1]]⟩ img x y).saturating_add
          (convSpec nc ⟨3, 3, [[-1, -2, -1], [0, 0, 0], [1, 2, 1]]⟩ img x y)) img.h⟩ := by
  have hkx : GeneralKernel.new 3 3 sobelKxData =
      some ⟨3, 3, [[-1, 0, 1], [-2, 0, 2], [-1, 0, 1]]⟩ := by
    with_unfolding_all decide
  have hky : GeneralKernel.new 3 3 sobelKyData =
      some ⟨3, 3, [[-1, -2, -1], [0, 0, 0], [1, 2, 1]]⟩ := by
    with_unfolding_all decide
  refine ⟨hkx, hky, ?_⟩
  unfold Sobel.filter
  rw [hkx, Option.some_bind, hky, Option.some_bind,
    kern_filter_eq nc _ img hwf hchan, Option.some_bind,
    kern_filter_eq nc _ img hwf hchan, Option.some_bind,
    optList_rowMajor img.w img.h _
      (fun x y =>
        (convSpec nc ⟨3, 3, [[-1, 0, 1], [-2, 0, 2], [-1, 0, 1]]⟩ img x y).saturating_add
          (convSpec nc ⟨3, 3, [[-1, -2, -1], [0, 0, 0], [1, 2, 1]]⟩ img x y))
      (fun x y hx hy => by
        rw [index_mk_rowMajor img.w img.h _ hx hy, Option.some_bind,
          index_mk_rowMajor img.w img.h _ hx hy, Option.some_bind]),
    Option.some_bind]

theorem c5_sobel_witness :
    (img3.wf ∧ img3.chanWf 1) ∧
    Sobel.filter 1 img3 = some ⟨img3.w, img3.h, img3.w,
      rowMajor img3.w (fun x y =>
        (convSpec 1 ⟨3, 3, [[-1, 0, 1], [-2, 0, 2], [-1, 0, 1]]⟩ img3 x y).saturating_add
          (convSpec 1 ⟨3, 3, [[-1, -2, -1], [0, 0, 0], [1, 2, 1]]⟩ img3 x y)) img3.h⟩ :=
  ⟨by with_unfolding_all decide,
   (c5_sobel 1 img3 (by with_unfolding_all decide)
     (by with_unfolding_all decide)).2.2⟩

/-- The claim-side median pixel: for each channel independently, collect the
channel values of the window cells strictly inside the image, sort them
ascending, and take the element at index `count/2` (integer division). -/
def medianSpec (nc fw fh : ℕ) (x y : ℕ) (img : Image Pix) : Pix :=
  (List.range nc).map (fun c =>
    let vals := ((windowCoords fw fh x y).filter (insideImg img)).map
      (fun p => ((img.pixelAt p.1.toNat p.2.toNat).getD []).getD c 0)
    (vals.insertionSort (· ≤ ·)).getD (vals.length / 2) 0)

theorem insideImg_spec {img : Image α} {p : ℤ × ℤ} (h : insideImg img p = true) :
    0 ≤ p.1 ∧ p.1 < (img.w : ℤ) ∧ 0 ≤ p.2 ∧ p.2 < (img.h : ℤ) :=
  of_decide_eq_true h

theorem pixelAt_getD_read (img : Image Pix) (hwf : img.wf) {px py : ℕ}
    (hx : px < img.w) (hy : py < img.h) {nc : ℕ} (hchan : img.chanWf nc)
    {c : ℕ} (hc : c < nc) :
    (img.index px py).bind (fun pix => (pix[c]? : Option ℕ)) =
      some (((img.pixelAt px py).getD []).getD c 0) := by
  obtain ⟨pix, hpix⟩ : ∃ pix, img.data[img.w * py + px]? = some pix := by
    rw [List.getElem?_eq_getElem (offset_lt_len img hwf hx hy)]
    exact ⟨_, rfl⟩
  have hmem : pix ∈ img.data := List.getElem?_mem hpix
  have hlen : pix.length = nc := hchan _ hmem
  rw [← img.pixelAt_of_lt hx hy, img.pixelAt_pos hwf hx hy, hpix,
    Option.some_bind]
  simp only [Option.getD_some]
  rw [List.getElem?_eq_getElem (by omega), List.getD_eq_getElem?_getD,
    List.getElem?_eq_getElem (by omega)]
  rfl

theorem center_mem_window {fw fh x y : ℕ} (hfw : fw % 2 = 1) (hfh : fh % 2 = 1) :
    ((x : ℤ), (y : ℤ)) ∈ windowCoords fw fh x y := by
  unfold windowCoords
  apply List.mem_map.mpr
  refine ⟨(fw / 2, fh / 2), mem_pairsOuter.mpr ⟨by omega, by omega⟩, ?_⟩
  simp only [Prod.mk.injEq]
  constructor <;> omega

theorem median_calc_eq (nc : ℕ) (f : MedianFilter) (img : Image Pix)
    (hwf : img.wf) (hchan : img.chanWf nc) (how : f.width % 2 = 1)
    (hoh : f.height % 2 = 1) {x y : ℕ} (hx : x < img.w) (hy : y < img.h) :
    median_filter_calc_one nc f x y img =
      some (medianSpec nc f.width f.height x y img) := by
  unfold median_filter_calc_one medianSpec
  apply optList_map_some
  intro c hc
  have hcn : c < nc := List.mem_range.mp hc
  rw [optList_map_some _ _
    (fun p => ((img.pixelAt p.1.toNat p.2.toNat).getD []).getD c 0) ?_]
  · rw [Option.some_bind]
    set vals := ((windowCoords f.width f.height x y).filter (insideImg img)).map
      (fun p => ((img.pixelAt p.1.toNat p.2.toNat).getD []).getD c 0) with hv
    have hne : vals ≠ [] := by
      have hcmem : ((x : ℤ), (y : ℤ)) ∈
          (windowCoords f.width f.height x y).filter (insideImg img) := by
        apply List.mem_filter.mpr
        refine ⟨center_mem_window how hoh, ?_⟩
        apply decide_eq_true
        refine ⟨by omega, ?_, by omega, ?_⟩
        · show (x : ℤ) < (img.w : ℤ)
          exact_mod_cast hx
        · show (y : ℤ) < (img.h : ℤ)
          exact_mod_cast hy
      exact List.ne_nil_of_mem (List.mem_map_of_mem _ hcmem)
    have hlen : 0 < vals.length := List.length_pos.mpr hne
    have hslen : (vals.insertionSort (· ≤ ·)).length = vals.length :=
      List.length_insertionSort _ _
    rw [List.getElem?_eq_getElem (by omega)]
    congr 1
    rw [List.getD_eq_getElem?_getD, List.getElem?_eq_getElem (by omega)]
    rfl
  · intro p hp
    have hin := insideImg_spec (List.of_mem_filter hp)
    exact pixelAt_getD_read img hwf
      (by omega) (by omega) hchan hcn

/-- C4: the median filter with odd window, on any well-formed image,
computes every output pixel channel-independently by collecting the channel
values of the window cells strictly inside the image (out-of-image cells
excluded, no boundary extension), sorting them ascending, and taking the
element at index `count/2` (integer division); `MedianFilter::new` accepts
the odd window; and `MedianFilter(3,3)` on the 3×3 single-channel image
`[1,2,3;4,5,6;7,8,9]` returns `5` at the center cell. -/
theorem c4_median_filter (nc : ℕ) (f : MedianFilter) (img : Image Pix)
    (hwf : img.wf) (hchan : img.chanWf nc) (how : f.width % 2 = 1)
    (hoh : f.height % 2 = 1) :
    MedianFilter.new f.width f.height = some f ∧
    MedianFilter.filter nc f img = some ⟨img.w, img.h, img.w,
      rowMajor img.w (fun x y => medianSpec nc f.width f.height x y img) img.h⟩ ∧
    (MedianFilter.filter 1 ⟨3, 3⟩ img3).bind (fun r => r.pixelAt 1 1) =
      some [5] := by
  refine ⟨?_, ?_, ?_⟩
  · unfold MedianFilter.new
    rw [if_pos ⟨how, hoh⟩]
  · unfold MedianFilter.filter
    rw [optList_rowMajor img.w img.h _
      (fun x y => medianSpec nc f.width f.height x y img)
      (fun x y hx hy => median_calc_eq nc f img hwf hchan how hoh hx hy),
      Option.some_bind]
  · with_unfolding_all decide

theorem c4_median_filter_witness :
    (img3.wf ∧ img3.chanWf 1 ∧ (3 : ℕ) % 2 = 1) ∧
    MedianFilter.filter 1 ⟨3, 3⟩ img3 = some ⟨img3.w, img3.h, img3.w,
      rowMajor img3.w (fun x y => medianSpec 1 3 3 x y img3) img3.h⟩ :=
  ⟨by with_unfolding_all decide,
   (c4_median_filter 1 ⟨3, 3⟩ img3 (by with_unfolding_all decide)
     (by with_unfolding_all decide) (by with_unfolding_all decide)
     (by with_unfolding_all decide)).2.1⟩

theorem normalize_idx (k : Kern) (hk : k.data.length = k.height)
    (hrow : ∀ row ∈ k.data, row.length = k.width) {x y : ℕ}
    (hx : x < k.width) (hy : y < k.height) :
    (Kern.normalize k).idx x y = k.idx x y / k.sumCoeffs := by
  unfold Kern.normalize Kern.idx
  have hylen : y < k.data.length := by rw [hk]; exact hy
  obtain ⟨row, hrowy⟩ : ∃ row, k.data[y]? = some row := by
    rw [List.getElem?_eq_getElem hylen]
    exact ⟨_, rfl⟩
  have hrmem : row ∈ k.data := List.getElem?_mem hrowy
  have hrlen : x < row.length := by rw [hrow _ hrmem]; exact hx
  simp only [List.getD_eq_getElem?_getD, List.getElem?_map, hrowy,
    Option.map_some', Option.getD_some, List.getElem?_eq_getElem hrlen]

theorem gaussianRawKern_idx (e : ℚ → ℚ) (size : ℕ) (sigma : ℚ) {x y : ℕ}
    (hx : x < size) (hy : y < size) :
    (gaussianRawKern e size sigma).idx x y =
      e (-(|(y : ℚ) - ((size / 2 : ℕ) : ℚ)| * |(y : ℚ) - ((size / 2 : ℕ) : ℚ)| /
            (2 * sigma * sigma) +
          |(x : ℚ) - ((size / 2 : ℕ) : ℚ)| * |(x : ℚ) - ((size / 2 : ℕ) : ℚ)| /
            (2 * sigma * sigma))) := by
  unfold gaussianRawKern Kern.idx
  simp only [List.getD_eq_getElem?_getD, List.getElem?_map,
    List.getElem?_range hy, Option.map_some', Option.getD_some,
    List.getElem?_range hx]

theorem gaussianRawKern_pos_sum (e : ℚ → ℚ) (size : ℕ) (sigma : ℚ)
    (he0 : e 0 = 1) (hpos : ∀ q, 0 ≤ e q) (hodd : size % 2 = 1) :
    0 < (gaussianRawKern e size sigma).sumCoeffs := by
  have hc : size / 2 < size := by omega
  have hwidth : (gaussianRawKern e size sigma).width = size := rfl
  have hheight : (gaussianRawKern e size sigma).height = size := rfl
  have hcenter : (gaussianRawKern e size sigma).idx (size / 2) (size / 2) = 1 := by
    rw [gaussianRawKern_idx e size sigma hc hc]
    rw [show |((size / 2 : ℕ) : ℚ) - ((size / 2 : ℕ) : ℚ)| = 0 by simp]
    rw [show (0 : ℚ) * 0 / (2 * sigma * sigma) = 0 by ring]
    rw [show (0 : ℚ) + 0 = 0 by ring, neg_zero, he0]
  have hterm : ∀ i ∈ Finset.range size, ∀ j ∈ Finset.range size,
      (0 : ℚ) ≤ (gaussianRawKern e size sigma).idx i j := by
    intro i hi j hj
    rw [gaussianRawKern_idx e size sigma (Finset.mem_range.mp hi)
      (Finset.mem_range.mp hj)]
    exact hpos _
  have hinner : (1 : ℚ) ≤ ∑ j ∈ Finset.range size,
      (gaussianRawKern e size sigma).idx (size / 2) j := by
    rw [← hcenter]
    exact Finset.single_le_sum (f := fun j =>
        (gaussianRawKern e size sigma).idx (size / 2) j)
      (fun j hj => hterm _ (Finset.mem_range.mpr hc) j hj)
      (Finset.mem_range.mpr hc)
  have houter : (1 : ℚ) ≤ (gaussianRawKern e size sigma).sumCoeffs := by
    unfold Kern.sumCoeffs
    rw [hwidth, hheight]
    calc (1 : ℚ) ≤ ∑ j ∈ Finset.range size,
          (gaussianRawKern e size sigma).idx (size / 2) j := hinner
      _ ≤ ∑ i ∈ Finset.range size, ∑ j ∈ Finset.range size,
          (gaussianRawKern e size sigma).idx i j :=
        Finset.single_le_sum (f := fun i => ∑ j ∈ Finset.range size,
            (gaussianRawKern e size sigma).idx i j)
          (fun i hi => Finset.sum_nonneg (fun j hj => hterm i hi j hj))
          (Finset.mem_range.mpr hc)
  linarith

/-- C6: `GaussianKernel::new(size, sigma)` for odd `size` and positive
`sigma` (with `f32::exp` abstracted as any function `e` with `e 0 = 1` and
`e ≥ 0`, both true of `exp`) fills cell `(x, y)` with
`e(-((x-c)² + (y-c)²)/(2σ²))` for `c = size/2` (integer division), divided
by the raw coefficient sum (the normalization), and the normalized
coefficients sum to exactly 1 in the exact-arithmetic model — in particular
within any floating-point tolerance such as 1e-5. -/
theorem c6_gaussian (e : ℚ → ℚ) (size : ℕ) (sigma : ℚ) (he0 : e 0 = 1)
    (hpos : ∀ q, 0 ≤ e q) (hodd : size % 2 = 1) (_hsig : 0 < sigma) :
    GaussianKernel.new e size sigma =
      some (Kern.normalize (gaussianRawKern e size sigma)) ∧
    (∀ x y, x < size → y < size →
      (Kern.normalize (gaussianRawKern e size sigma)).idx x y =
        e (-((((x : ℚ) - ((size / 2 : ℕ) : ℚ)) ^ 2 +
              ((y : ℚ) - ((size / 2 : ℕ) : ℚ)) ^ 2) / (2 * sigma ^ 2))) /
          (gaussianRawKern e size sigma).sumCoeffs) ∧
    (Kern.normalize (gaussianRawKern e size sigma)).sumCoeffs = 1 := by
  have hS := gaussianRawKern_pos_sum e size sigma he0 hpos hodd
  have hk : (gaussianRawKern e size sigma).data.length =
      (gaussianRawKern e size sigma).height := by
    unfold gaussianRawKern
    simp
  have hrow : ∀ row ∈ (gaussianRawKern e size sigma).data,
      row.length = (gaussianRawKern e size sigma).width := by
    intro row hr
    unfold gaussianRawKern at hr ⊢
    simp only [List.mem_map] at hr
    obtain ⟨x, _, rfl⟩ := hr
    simp
  refine ⟨by unfold GaussianKernel.new; rw [if_pos hodd], ?_, ?_⟩
  · intro x y hx hy
    rw [normalize_idx _ hk hrow hx hy, gaussianRawKern_idx e size sigma hx hy]
    congr 2
    rw [div_add_div_same, abs_mul_abs_self, abs_mul_abs_self]
    ring
  · unfold Kern.sumCoeffs
    have hnw : (Kern.normalize (gaussianRawKern e size sigma)).width = size := rfl
    have hnh : (Kern.normalize (gaussianRawKern e size sigma)).height = size := rfl
    rw [hnw, hnh]
    have hptwise : ∀ i ∈ Finset.range size,
        ∑ j ∈ Finset.range size,
            (Kern.normalize (gaussianRawKern e size sigma)).idx i j =
          (∑ j ∈ Finset.range size, (gaussianRawKern e size sigma).idx i j) /
            (gaussianRawKern e size sigma).sumCoeffs := by
      intro i hi
      rw [Finset.sum_congr rfl (fun j hj =>
        normalize_idx _ hk hrow
          (show i < size from Finset.mem_range.mp hi)
          (show j < size from Finset.mem_range.mp hj))]
      rw [← Finset.sum_div]
    rw [Finset.sum_congr rfl hptwise, ← Finset.sum_div]
    rw [show ∑ i ∈ Finset.range size, ∑ j ∈ Finset.range size,
        (gaussianRawKern e size sigma).idx i j =
        (gaussianRawKern e size sigma).sumCoeffs from rfl]
    exact div_self (ne_of_gt hS)

theorem c6_gaussian_witness :
    ((fun _ : ℚ => (1 : ℚ)) 0 = 1 ∧ (3 : ℕ) % 2 = 1 ∧ (0 : ℚ) < 1) ∧
    (Kern.normalize (gaussianRawKern (fun _ => 1) 3 1)).sumCoeffs = 1 :=
  ⟨by with_unfolding_all decide,
   (c6_gaussian (fun _ => 1) 3 1 rfl (fun q => by norm_num)
     (by with_unfolding_all decide) (by with_unfolding_all decide)).2.2⟩

/-- A sequence of `ret[(x, y)] = f x y` writes, in the given order. -/
def writeList (f : ℕ → ℕ → α) (ps : List (ℕ × ℕ)) (im : Image (Option α)) :
    Image (Option α) :=
  ps.foldl (fun im xy => im.setPix xy.1 xy.2 (some (f xy.1 xy.2))) im

theorem setPix_stride (im : Image α) (x y : ℕ) (v : α) :
    (im.setPix x y v).stride = im.stride := rfl

theorem setPix_data (im : Image α) (x y : ℕ) (v : α) :
    (im.setPix x y v).data = im.data.set (im.stride * y + x) v := rfl

theorem setPix_data_length (im : Image α) (x y : ℕ) (v : α) :
    (im.setPix x y v).data.length = im.data.length := by
  rw [setPix_data, List.length_set]

theorem writeList_getElem? (w : ℕ) (hw : 0 < w) (f : ℕ → ℕ → α)
    (ps : List (ℕ × ℕ)) :
    ∀ (im : Image (Option α)), (∀ xy ∈ ps, xy.1 < w) → im.stride = w →
    ∀ n, (writeList f ps im).data[n]? =
      if (∃ xy ∈ ps, w * xy.2 + xy.1 = n) ∧ n < im.data.length
      then some (some (f (n % w) (n / w)))
      else im.data[n]? := by
  induction ps with
  | nil =>
    intro im _ _ n
    rw [if_neg]
    · rfl
    · rintro ⟨⟨xy, hmem, _⟩, _⟩
      simp at hmem
  | cons xy rest ih =>
    intro im hps hstride n
    show (writeList f rest (im.setPix xy.1 xy.2 (some (f xy.1 xy.2)))).data[n]? = _
    rw [ih _ (fun zw hz => hps zw (by simp [hz]))
      (by rw [setPix_stride]; exact hstride), setPix_data_length,
      setPix_data, hstride, List.getElem?_set]
    have hx1 : xy.1 < w := hps xy (by simp)
    by_cases h3 : n < im.data.length
    · by_cases h1 : ∃ zw ∈ rest, w * zw.2 + zw.1 = n
      · rw [if_pos (show (∃ zw ∈ rest, w * zw.2 + zw.1 = n) ∧
            n < im.data.length from ⟨h1, h3⟩),
          if_pos (show (∃ zw ∈ xy :: rest, w * zw.2 + zw.1 = n) ∧
            n < im.data.length from by
              obtain ⟨zw, hmem, heq⟩ := h1
              exact ⟨⟨zw, by simp [hmem], heq⟩, h3⟩)]
      · by_cases h2 : w * xy.2 + xy.1 = n
        · rw [if_neg (show ¬((∃ zw ∈ rest, w * zw.2 + zw.1 = n) ∧
              n < im.data.length) from fun hc => h1 hc.1),
            if_pos h2,
            if_pos (show w * xy.2 + xy.1 < im.data.length from by omega),
            if_pos (show (∃ zw ∈ xy :: rest, w * zw.2 + zw.1 = n) ∧
              n < im.data.length from ⟨⟨xy, by simp, h2⟩, h3⟩)]
          have hmod : n % w = xy.1 := by
            rw [← h2, Nat.mul_add_mod]
            exact Nat.mod_eq_of_lt hx1
          have hdiv : n / w = xy.2 := by
            rw [← h2, Nat.mul_add_div hw, Nat.div_eq_of_lt hx1, Nat.add_zero]
          rw [hmod, hdiv]
        · rw [if_neg (show ¬((∃ zw ∈ rest, w * zw.2 + zw.1 = n) ∧
              n < im.data.length) from fun hc => h1 hc.1),
            if_neg h2,
            if_neg (show ¬((∃ zw ∈ xy :: rest, w * zw.2 + zw.1 = n) ∧
              n < im.data.length) from by
                rintro ⟨⟨zw, hmem, heq⟩, _⟩
                rcases List.mem_cons.mp hmem with rfl | hm2
                · exact h2 heq
                · exact h1 ⟨zw, hm2, heq⟩)]
    · rw [if_neg (show ¬((∃ zw ∈ rest, w * zw.2 + zw.1 = n) ∧
          n < im.data.length) from fun hc => h3 hc.2),
        if_neg (show ¬((∃ zw ∈ xy :: rest, w * zw.2 + zw.1 = n) ∧
          n < im.data.length) from fun hc => h3 hc.2)]
      by_cases h2 : w * xy.2 + xy.1 = n
      · rw [if_pos h2,
          if_neg (show ¬(w * xy.2 + xy.1 < im.data.length) from by omega),
          List.getElem?_eq_none (show im.data.length ≤ n from by omega)]
      · rw [if_neg h2]

/-- The row-major list of all cell coordinates, the write order of the
`y`-outer filter loops. -/
def yxPairs (w h : ℕ) : List (ℕ × ℕ) := rowMajor w (fun x y => (x, y)) h

theorem mem_yxPairs {w h : ℕ} {xy : ℕ × ℕ} :
    xy ∈ yxPairs w h ↔ xy.1 < w ∧ xy.2 < h := by
  unfold yxPairs
  induction h with
  | zero => simp [rowMajor]
  | succ n ih =>
    simp only [rowMajor, List.mem_append, ih, List.mem_map, List.mem_range]
    constructor
    · rintro (⟨hl, hr⟩ | ⟨x, hx, rfl⟩)
      · exact ⟨hl, by omega⟩
      · exact ⟨hx, by simp⟩
    · rintro ⟨h1, h2⟩
      by_cases hn : xy.2 < n
      · exact Or.inl ⟨h1, hn⟩
      · refine Or.inr ⟨xy.1, h1, ?_⟩
        have h4 : xy.2 = n := by omega
        cases xy
        simp_all

theorem writeList_append (f : ℕ → ℕ → α) (ps qs : List (ℕ × ℕ))
    (im : Image (Option α)) :
    writeList f (ps ++ qs) im = writeList f qs (writeList f ps im) := by
  unfold writeList
  rw [List.foldl_append]

theorem foldl_setPix_row (f : ℕ → ℕ → α) (y w : ℕ) (im : Image (Option α)) :
    (List.range w).foldl (fun im x => im.setPix x y (some (f x y))) im =
    writeList f ((List.range w).map (fun x => (x, y))) im := by
  unfold writeList
  rw [List.foldl_map]

theorem foldl_setPix_col (f : ℕ → ℕ → α) (x h : ℕ) (im : Image (Option α)) :
    (List.range h).foldl (fun im y => im.setPix x y (some (f x y))) im =
    writeList f ((List.range h).map (fun y => (x, y))) im := by
  unfold writeList
  rw [List.foldl_map]

theorem writeLoopYX_aux (f : ℕ → ℕ → α) (w : ℕ) :
    ∀ (h : ℕ) (im : Image (Option α)),
      (List.range h).foldl
        (fun im y => (List.range w).foldl
          (fun im x => im.setPix x y (some (f x y))) im) im =
      writeList f (yxPairs w h) im := by
  intro h
  induction h with
  | zero => intro im; rfl
  | succ n ih =>
    intro im
    rw [List.range_succ, List.foldl_append, ih im]
    have hyx : yxPairs w (n + 1) =
        yxPairs w n ++ (List.range w).map (fun x => (x, n)) := by
      unfold yxPairs
      rw [rowMajor]
    rw [hyx, writeList_append]
    exact foldl_setPix_row f n w (writeList f (yxPairs w n) im)

theorem writeLoopXY_aux (f : ℕ → ℕ → α) (h : ℕ) :
    ∀ (w : ℕ) (im : Image (Option α)),
      (List.range w).foldl
        (fun im x => (List.range h).foldl
          (fun im y => im.setPix x y (some (f x y))) im) im =
      writeList f (pairsOuter w h) im := by
  intro w
  induction w with
  | zero => intro im; rfl
  | succ n ih =>
    intro im
    rw [List.range_succ, List.foldl_append, ih im]
    have hp : pairsOuter (n + 1) h =
        pairsOuter n h ++ (List.range h).map (fun j => (n, j)) := by
      rw [pairsOuter]
    rw [hp, writeList_append]
    exact foldl_setPix_col f n h (writeList f (pairsOuter n h) im)

theorem writeLoopYX_eq (w h : ℕ) (f : ℕ → ℕ → α) :
    writeLoopYX w h f = writeList f (yxPairs w h) (Image.newUninit w h) :=
  writeLoopYX_aux f w h (Image.newUninit w h)

theorem writeLoopXY_eq (w h : ℕ) (f : ℕ → ℕ → α) :
    writeLoopXY w h f = writeList f (pairsOuter w h) (Image.newUninit w h) :=
  writeLoopXY_aux f h w (Image.newUninit w h)

theorem writeList_dims (f : ℕ → ℕ → α) (ps : List (ℕ × ℕ)) :
    ∀ im : Image (Option α), (writeList f ps im).w = im.w ∧
      (writeList f ps im).h = im.h ∧ (writeList f ps im).stride = im.stride := by
  induction ps with
  | nil => intro im; exact ⟨rfl, rfl, rfl⟩
  | cons xy rest ih =>
    intro im
    exact ih (im.setPix xy.1 xy.2 (some (f xy.1 xy.2)))

theorem writeLoopYX_w (w h : ℕ) (f : ℕ → ℕ → α) : (writeLoopYX w h f).w = w := by
  rw [writeLoopYX_eq]
  exact (writeList_dims f (yxPairs w h) (Image.newUninit w h)).1

theorem writeLoopYX_h (w h : ℕ) (f : ℕ → ℕ → α) : (writeLoopYX w h f).h = h := by
  rw [writeLoopYX_eq]
  exact (writeList_dims f (yxPairs w h) (Image.newUninit w h)).2.1

theorem writeLoopYX_stride (w h : ℕ) (f : ℕ → ℕ → α) :
    (writeLoopYX w h f).stride = w := by
  rw [writeLoopYX_eq]
  exact (writeList_dims f (yxPairs w h) (Image.newUninit w h)).2.2

theorem writeLoopXY_w (w h : ℕ) (f : ℕ → ℕ → α) : (writeLoopXY w h f).w = w := by
  rw [writeLoopXY_eq]
  exact (writeList_dims f (pairsOuter w h) (Image.newUninit w h)).1

theorem writeLoopXY_h (w h : ℕ) (f : ℕ → ℕ → α) : (writeLoopXY w h f).h = h := by
  rw [writeLoopXY_eq]
  exact (writeList_dims f (pairsOuter w h) (Image.newUninit w h)).2.1

theorem writeLoopXY_stride (w h : ℕ) (f : ℕ → ℕ → α) :
    (writeLoopXY w h f).stride = w := by
  rw [writeLoopXY_eq]
  exact (writeList_dims f (pairsOuter w h) (Image.newUninit w h)).2.2

theorem rowMajor_zero_w (g : ℕ → ℕ → α) (h : ℕ) : rowMajor 0 g h = [] := by
  induction h with
  | zero => rfl
  | succ n ih =>
    rw [rowMajor, ih]
    rfl

theorem flat_offset_lt {w h x y : ℕ} (hx : x < w) (hy : y < h) :
    w * y + x < w * h := by
  have h1 : w * (y + 1) ≤ w * h := Nat.mul_le_mul_left _ (by omega)
  have h2 : w * (y + 1) = w * y + w := by ring
  omega

theorem rowMajor_getElem?_flat (w : ℕ) (hw : 0 < w) (g : ℕ → ℕ → α) (h n : ℕ) :
    (rowMajor w g h)[n]? =
      if n < w * h then some (g (n % w) (n / w)) else none := by
  by_cases hn : n < w * h
  · rw [if_pos hn]
    have h1 : n % w < w := Nat.mod_lt _ hw
    have h2 : n / w < h := by
      rw [Nat.div_lt_iff_lt_mul hw, Nat.mul_comm h w]
      exact hn
    have h3 : w * (n / w) + n % w = n := by
      rw [Nat.add_comm]
      exact Nat.mod_add_div n w
    calc (rowMajor w g h)[n]?
        = (rowMajor w g h)[w * (n / w) + n % w]? := by rw [h3]
      _ = some (g (n % w) (n / w)) := rowMajor_getElem? w g h1 h2
  · rw [if_neg hn, List.getElem?_eq_none]
    rw [rowMajor_length]
    omega

theorem writeList_full_data (w h : ℕ) (f : ℕ → ℕ → α)
    (ps : List (ℕ × ℕ)) (hps : ∀ xy, xy ∈ ps ↔ xy.1 < w ∧ xy.2 < h) :
    (writeList f ps (Image.newUninit w h)).data =
      rowMajor w (fun x y => some (f x y)) h := by
  rcases Nat.eq_zero_or_pos w with rfl | hw
  · have hnil : ps = [] := by
      cases ps with
      | nil => rfl
      | cons xy rest => exact absurd ((hps xy).mp (by simp)).1 (by omega)
    rw [hnil, rowMajor_zero_w]
    show (Image.newUninit 0 h : Image (Option α)).data = []
    show List.replicate (0 * h) (none : Option α) = []
    rw [Nat.zero_mul]
    rfl
  · have hlen : (Image.newUninit w h : Image (Option α)).data.length = w * h := by
      show (List.replicate (w * h) (none : Option α)).length = w * h
      simp
    apply List.ext_getElem?
    intro n
    rw [writeList_getElem? w hw f ps (Image.newUninit w h)
        (fun xy hxy => ((hps xy).mp hxy).1) rfl n,
      rowMajor_getElem?_flat w hw]
    by_cases hn : n < w * h
    · rw [if_pos ?_, if_pos hn]
      refine ⟨⟨(n % w, n / w), (hps _).mpr ⟨Nat.mod_lt _ hw, ?_⟩, ?_⟩, ?_⟩
      · rw [Nat.div_lt_iff_lt_mul hw, Nat.mul_comm h w]
        exact hn
      · show w * (n / w) + n % w = n
        rw [Nat.add_comm]
        exact Nat.mod_add_div n w
      · rw [hlen]
        exact hn
    · rw [if_neg (show ¬((∃ xy ∈ ps, w * xy.2 + xy.1 = n) ∧
          n < (Image.newUninit w h : Image (Option α)).data.length) from
            fun hc => hn (hlen ▸ hc.2)),
        if_neg hn]
      show (List.replicate (w * h) (none : Option α))[n]? = none
      rw [List.getElem?_replicate, if_neg hn]

theorem writeLoopYX_data (w h : ℕ) (f : ℕ → ℕ → α) :
    (writeLoopYX w h f).data = rowMajor w (fun x y => some (f x y)) h := by
  rw [writeLoopYX_eq]
  exact writeList_full_data w h f (yxPairs w h) (fun xy => mem_yxPairs)

theorem writeLoopXY_data (w h : ℕ) (f : ℕ → ℕ → α) :
    (writeLoopXY w h f).data = rowMajor w (fun x y => some (f x y)) h := by
  rw [writeLoopXY_eq]
  exact writeList_full_data w h f (pairsOuter w h) (fun xy => mem_pairsOuter)

theorem newUninit_pixelAt (w h : ℕ) {x y : ℕ} (hx : x < w) (hy : y < h) :
    (Image.newUninit w h : Image (Option α)).pixelAt x y = some none := by
  show (if x < w ∧ y < h
    then (List.replicate (w * h) (none : Option α))[w * y + x]? else none) =
      some none
  rw [if_pos (show x < w ∧ y < h from ⟨hx, hy⟩), List.getElem?_replicate,
    if_pos (flat_offset_lt hx hy)]

theorem writeLoopYX_pixelAt (w h : ℕ) (f : ℕ → ℕ → α) {x y : ℕ}
    (hx : x < w) (hy : y < h) :
    (writeLoopYX w h f).pixelAt x y = some (some (f x y)) := by
  unfold Image.pixelAt Image.index
  rw [writeLoopYX_w, writeLoopYX_h, writeLoopYX_stride, writeLoopYX_data,
    if_pos (show x < w ∧ y < h from ⟨hx, hy⟩),
    rowMajor_getElem? w (fun x y => some (f x y)) hx hy]

theorem writeLoopXY_pixelAt (w h : ℕ) (f : ℕ → ℕ → α) {x y : ℕ}
    (hx : x < w) (hy : y < h) :
    (writeLoopXY w h f).pixelAt x y = some (some (f x y)) := by
  unfold Image.pixelAt Image.index
  rw [writeLoopXY_w, writeLoopXY_h, writeLoopXY_stride, writeLoopXY_data,
    if_pos (show x < w ∧ y < h from ⟨hx, hy⟩),
    rowMajor_getElem? w (fun x y => some (f x y)) hx hy]

theorem optList_eq_some (l : List (Option α)) (d : List α)
    (h : optList l = some d) : l = d.map some := by
  induction l generalizing d with
  | nil =>
    have h2 : some ([] : List α) = some d := h
    rw [← Option.some_inj.mp h2]
    rfl
  | cons o t ih =>
    cases o with
    | none => exact absurd h (by simp [optList])
    | some a =>
      have h2 : (optList t).map (a :: ·) = some d := h
      cases hh : optList t with
      | none =>
        rw [hh] at h2
        exact absurd h2 (by simp)
      | some td =>
        rw [hh] at h2
        have h3 : a :: td = d := Option.some_inj.mp h2
        rw [← h3, List.map_cons, ih td hh]

theorem mkFilter_initialized (w h : ℕ) (F : ℕ → ℕ → Option Pix) (ret : Image Pix)
    (hret : (optList (rowMajor w F h)).bind
      (fun d => some (⟨w, h, w, d⟩ : Image Pix)) = some ret) :
    ret.w = w ∧ ret.h = h ∧ ret.stride = w ∧ ret.data.length = w * h ∧
      rowMajor w F h = ret.data.map some ∧
      ∀ x y, x < w → y < h →
        ∃ p, ret.pixelAt x y = some p ∧ F x y = some p := by
  cases hd : optList (rowMajor w F h) with
  | none =>
    rw [hd] at hret
    exact absurd hret (by simp)
  | some d =>
    rw [hd, Option.some_bind] at hret
    have hr : (⟨w, h, w, d⟩ : Image Pix) = ret := Option.some_inj.mp hret
    have hmap : rowMajor w F h = d.map some := optList_eq_some _ _ hd
    have hlen : d.length = w * h := by
      have h1 := rowMajor_length w F h
      rw [hmap, List.length_map] at h1
      exact h1
    subst hr
    refine ⟨rfl, rfl, rfl, hlen, hmap, ?_⟩
    intro x y hx hy
    have hwf : (⟨w, h, w, d⟩ : Image Pix).wf := ⟨rfl, hlen⟩
    have hidx : w * y + x < d.length := by
      rw [hlen]
      exact flat_offset_lt hx hy
    obtain ⟨p, hp⟩ : ∃ p, d[w * y + x]? = some p := by
      rw [List.getElem?_eq_getElem hidx]
      exact ⟨_, rfl⟩
    refine ⟨p, ?_, ?_⟩
    · rw [Image.pixelAt_pos ⟨w, h, w, d⟩ hwf hx hy]
      exact hp
    · have h1 := rowMajor_getElem? w F hx hy
      rw [hmap, List.getElem?_map, hp, Option.map_some'] at h1
      exact (Option.some_inj.mp h1).symm

/-- C10: every filter writes every pixel of its freshly allocated output
image before returning.  (i) `Image::new` allocates an uninitialized buffer
(every cell of the fresh image holds the uninitialized marker); (ii) the
`y`-outer/`x`-inner write loop of the kernel filters and the
`x`-outer/`y`-inner write loop of the median/box filters, run over such a
fresh image, leave every in-range cell written with the per-pixel value,
none uninitialized — the finished buffer is exactly the row-major table of
the per-pixel results; (iii) whenever a filter (general / gaussian kernel,
median, box, Sobel) returns an image, that image has the input's width and
height and every one of its `width * height` pixels holds a written
per-pixel result, so no uninitialized pixel is ever read from a returned
image. -/
theorem c10_full_initialization (nc : ℕ) (k : Kern) (mf : MedianFilter)
    (bf : BoxFilter) (img : Image Pix) :
    (∀ (w h x y : ℕ), x < w → y < h →
      (Image.newUninit w h : Image (Option Pix)).pixelAt x y = some none) ∧
    (∀ (w h : ℕ) (f : ℕ → ℕ → Pix),
      (writeLoopYX w h f).data = rowMajor w (fun x y => some (f x y)) h ∧
      (writeLoopXY w h f).data = rowMajor w (fun x y => some (f x y)) h ∧
      ∀ x y, x < w → y < h →
        (writeLoopYX w h f).pixelAt x y = some (some (f x y)) ∧
        (writeLoopXY w h f).pixelAt x y = some (some (f x y))) ∧
    (∀ ret, Kern.filter nc k img = some ret →
      ret.w = img.w ∧ ret.h = img.h ∧
      ∀ x y, x < img.w → y < img.h →
        ∃ p, ret.pixelAt x y = some p ∧
          kern_calc_one_pos nc k x y img = some p) ∧
    (∀ ret, MedianFilter.filter nc mf img = some ret →
      ret.w = img.w ∧ ret.h = img.h ∧
      ∀ x y, x < img.w → y < img.h →
        ∃ p, ret.pixelAt x y = some p ∧
          median_filter_calc_one nc mf x y img = some p) ∧
    (∀ ret, BoxFilter.filter nc bf img = some ret →
      ret.w = img.w ∧ ret.h = img.h ∧
      ∀ x y, x < img.w → y < img.h →
        ∃ p, ret.pixelAt x y = some p ∧
          box_filter_calc_one nc bf x y img = some p) ∧
    (∀ ret, Sobel.filter nc img = some ret →
      ret.w = img.w ∧ ret.h = img.h ∧
      ∀ x y, x < img.w → y < img.h → ∃ p, ret.pixelAt x y = some p) := by
  refine ⟨?_, ?_, ?_, ?_, ?_, ?_⟩
  · intro w h x y hx hy
    exact newUninit_pixelAt w h hx hy
  · intro w h f
    exact ⟨writeLoopYX_data w h f, writeLoopXY_data w h f,
      fun x y hx hy => ⟨writeLoopYX_pixelAt w h f hx hy,
        writeLoopXY_pixelAt w h f hx hy⟩⟩
  · intro ret hret
    obtain ⟨h1, h2, -, -, -, h6⟩ := mkFilter_initialized img.w img.h
      (fun x y => kern_calc_one_pos nc k x y img) ret hret
    exact ⟨h1, h2, h6⟩
  · intro ret hret
    obtain ⟨h1, h2, -, -, -, h6⟩ := mkFilter_initialized img.w img.h
      (fun x y => median_filter_calc_one nc mf x y img) ret hret
    exact ⟨h1, h2, h6⟩
  · intro ret hret
    obtain ⟨h1, h2, -, -, -, h6⟩ := mkFilter_initialized img.w img.h
      (fun x y => box_filter_calc_one nc bf x y img) ret hret
    exact ⟨h1, h2, h6⟩
  · intro ret hret
    unfold Sobel.filter at hret
    rw [show GeneralKernel.new 3 3 sobelKxData =
        some ⟨3, 3, [[-1, 0, 1], [-2, 0, 2], [-1, 0, 1]]⟩ from by
          with_unfolding_all decide,
      show GeneralKernel.new 3 3 sobelKyData =
        some ⟨3, 3, [[-1, -2, -1], [0, 0, 0], [1, 2, 1]]⟩ from by
          with_unfolding_all decide,
      Option.some_bind, Option.some_bind] at hret
    cases hfx : Kern.filter nc ⟨3, 3, [[-1, 0, 1], [-2, 0, 2], [-1, 0, 1]]⟩ img with
    | none =>
      rw [hfx, Option.none_bind] at hret
      exact absurd hret (by simp)
    | some imgx =>
      rw [hfx, Option.some_bind] at hret
      cases hfy : Kern.filter nc ⟨3, 3, [[-1, -2, -1], [0, 0, 0], [1, 2, 1]]⟩ img with
      | none =>
        rw [hfy, Option.none_bind] at hret
        exact absurd hret (by simp)
      | some imgy =>
        rw [hfy, Option.some_bind] at hret
        obtain ⟨h1, h2, -, -, -, h6⟩ := mkFilter_initialized img.w img.h
          (fun x y => (imgx.index x y).bind fun a =>
            (imgy.index x y).bind fun b => some (a.saturating_add b)) ret hret
        exact ⟨h1, h2, fun x y hx hy =>
          (h6 x y hx hy).elim (fun p hp => ⟨p, hp.1⟩)⟩

theorem c10_full_initialization_witness :
    (Image.newUninit 2 2 : Image (Option Pix)).pixelAt 1 0 = some none ∧
    (writeLoopYX 2 2 (fun x y => ([10 * y + x] : Pix))).pixelAt 0 1 =
      some (some [10]) ∧
    (writeLoopXY 2 2 (fun x y => ([10 * y + x] : Pix))).pixelAt 1 1 =
      some (some [11]) ∧
    ∃ p, img3.pixelAt 2 2 = some p ∧
      kern_calc_one_pos 1 ⟨1, 1, [[1]]⟩ 2 2 img3 = some p := by
  have H := c10_full_initialization 1 ⟨1, 1, [[1]]⟩ ⟨3, 3⟩ ⟨3, 3⟩ img3
  refine ⟨H.1 2 2 1 0 (by decide) (by decide),
    ((H.2.1 2 2 (fun x y => ([10 * y + x] : Pix))).2.2 0 1
      (by decide) (by decide)).1,
    ((H.2.1 2 2 (fun x y => ([10 * y + x] : Pix))).2.2 1 1
      (by decide) (by decide)).2,
    (H.2.2.1 img3 (by with_unfolding_all decide)).2.2 2 2
      (by decide) (by decide)⟩
